import Mathlib

/-!
Verification of the tunable-parameter data model and optimizer adapter of the
MLOS benchmarking harness (`mlos_bench`/`mlos_core`).

Python dictionaries are embedded as insertion-ordered association lists, and
Python object identity (the reference/aliasing semantics of
`CovariantTunableGroup` objects shared between `TunableGroups` views) is
embedded as an arena of groups addressed by stable numeric ids, with each
`TunableGroups` holding ids rather than values.
-/

/-! ## Association-list helpers (Python `dict` embedding) -/

/-- Lookup in an insertion-ordered association list (Python `d[k]` / `k in d`). -/
def alookup {α β : Type} [DecidableEq α] (k : α) : List (α × β) → Option β
  | [] => none
  | p :: rest => if p.1 = k then some p.2 else alookup k rest

/-- Update in place if the key exists, else append (Python `d[k] = v`). -/
def aset {α β : Type} [DecidableEq α] (k : α) (v : β) : List (α × β) → List (α × β)
  | [] => [(k, v)]
  | p :: rest => if p.1 = k then (k, v) :: rest else p :: aset k v rest

/-- Keys of an association list, in insertion order (Python `d.keys()`). -/
def akeys {α β : Type} (l : List (α × β)) : List α := l.map Prod.fst

/-! ## Values, domains and tunables

The `Tunable` class itself is not among the provided sources (only its
container `TunableGroups` is), so the parameter model below is modelled from
the spec.
-/

/-- Modelled from the spec: a tunable value is an int, a float or a categorical
string (`type ∈ {int, float, categorical}`); floats are embedded as rationals. -/
inductive TunableValue
  | i (n : Int)
  | fl (q : Rat)
  | s (v : String)
  deriving DecidableEq, Repr

/-- Modelled from the spec: the domain constraint of a tunable — a numeric
`range` `[min, max]` (ints optionally with a `special` set of out-of-range
sentinel values), or an ordered set of allowed strings for categoricals. -/
inductive TunableDomain
  | intRange (lo hi : Int) (special : List Int)
  | floatRange (lo hi : Rat)
  | categorical (vals : List String)
  deriving DecidableEq, Repr

/-- Modelled from the spec: domain membership — `range ∪ special` for numeric
types, membership in `values` for categoricals. -/
def TunableDomain.allows : TunableDomain → TunableValue → Bool
  | .intRange lo hi sp, .i n => (decide (lo ≤ n) && decide (n ≤ hi)) || sp.contains n
  | .floatRange lo hi, .fl q => decide (lo ≤ q) && decide (q ≤ hi)
  | .categorical vs, .s v => vs.contains v
  | _, _ => false

/-- Modelled from the spec: a single named parameter with a type/domain
constraint, a default, and a current value. -/
structure Tunable where
  name : String
  domain : TunableDomain
  default : TunableValue
  value : TunableValue
  deriving DecidableEq, Repr

/-! ## CovariantTunableGroup

The `CovariantTunableGroup` class is not among the provided sources either;
its operations are modelled from the spec (sections 3 and 4.2).
-/

/-- Modelled from the spec: a named set of tunables sharing a single change
cost and a single dirty/updated flag. The `tunables` dict is embedded as an
insertion-ordered list keyed by `Tunable.name`. -/
structure CovariantTunableGroup where
  name : String
  cost : Int
  tunables : List Tunable
  is_updated : Bool
  deriving DecidableEq, Repr

/-- Modelled from the spec: `get_tunable(name)`, `none` standing for the
`KeyError` case. -/
def CovariantTunableGroup.get_tunable (g : CovariantTunableGroup) (n : String) : Option Tunable :=
  g.tunables.find? (fun t => t.name == n)

/-- Name, domain and default of a member by name — the data `equals_defaults`
compares (current value and dirty flag excluded). -/
def CovariantTunableGroup.metaLookup (g : CovariantTunableGroup) (n : String) :
    Option (TunableDomain × TunableValue) :=
  (g.get_tunable n).map (fun t => (t.domain, t.default))

/-- Modelled from the spec: `equals_defaults(other)` — structural equality of
member names, domains and defaults, ignoring current values and the dirty
flag; dict comparison is order-insensitive, hence the two-sided inclusion. -/
def CovariantTunableGroup.equals_defaults (g o : CovariantTunableGroup) : Bool :=
  g.tunables.all (fun t => decide (o.metaLookup t.name = some (t.domain, t.default))) &&
  o.tunables.all (fun t => decide (g.metaLookup t.name = some (t.domain, t.default)))

/-- Modelled from the spec: `get_tunable_values_dict()` — flat mapping of
member name to current value. -/
def CovariantTunableGroup.get_tunable_values_dict (g : CovariantTunableGroup) :
    List (String × TunableValue) :=
  g.tunables.map (fun t => (t.name, t.value))

/-- Modelled from the spec: `restore_defaults()` — sets every member to its
default; restoring is itself a change, so the group stays/becomes dirty. -/
def CovariantTunableGroup.restore_defaults (g : CovariantTunableGroup) : CovariantTunableGroup :=
  { g with
    tunables := g.tunables.map (fun t => { t with value := t.default })
    is_updated := true }

/-- Modelled from the spec: `reset_is_updated()` — clears the dirty flag only,
values untouched. -/
def CovariantTunableGroup.reset_is_updated (g : CovariantTunableGroup) : CovariantTunableGroup :=
  { g with is_updated := false }

/-- Modelled from the spec: `is_defaults()` — true iff every member's current
value equals its default. -/
def CovariantTunableGroup.is_defaults (g : CovariantTunableGroup) : Bool :=
  g.tunables.all (fun t => decide (t.value = t.default))

/-! ## Errors raised by the data model -/

/-- The exceptions of the tunables layer: the `assert` in `_add_group`, the
two distinct `ValueError` raises (duplicate tunable on insert, overlapping
incompatible group on merge — the spec's `IncompatibleGroupsError`), the
`KeyError` lookups, and the domain `ValidationError` of `Tunable.set`. -/
inductive MErr
  | assertionError
  | valueErrorDupTunable (tunable group : String)
  | valueErrorOverlap (group : String)
  | keyError (name : String)
  | validationError (name : String)
  deriving DecidableEq, Repr

/-- Both `ValueError` raises of the Python code share the `ValueError` class
(the spec's `ValidationError`/`IncompatibleGroupsError` taxonomy maps onto it). -/
def MErr.isValueError : MErr → Bool
  | .valueErrorDupTunable _ _ => true
  | .valueErrorOverlap _ => true
  | _ => false

/-- Modelled from the spec: group item-assignment — fails with `KeyError` on an
unknown member and `ValidationError` on a value outside the domain, otherwise
updates the member and sets `is_updated := true` as a side effect, even if the
new value equals the old one. -/
def CovariantTunableGroup.setValue (g : CovariantTunableGroup) (n : String) (v : TunableValue) :
    Except MErr CovariantTunableGroup :=
  match g.get_tunable n with
  | none => .error (.keyError n)
  | some t =>
    if t.domain.allows v then
      .ok { g with
              tunables := g.tunables.map (fun u => if u.name = n then { u with value := v } else u)
              is_updated := true }
    else .error (.validationError n)

/-! ## The arena of groups

`TunableGroups` objects share `CovariantTunableGroup` objects by reference
(`subgroup`, `merge`); following the spec's design note, groups live in an
arena and are referenced by stable ids from the `TunableGroups` views.
-/

abbrev GroupId := Nat

structure GroupArena where
  groups : List (GroupId × CovariantTunableGroup)
  next : GroupId
  deriving DecidableEq, Repr

def GroupArena.get (h : GroupArena) (i : GroupId) : Option CovariantTunableGroup :=
  alookup i h.groups

def GroupArena.set (h : GroupArena) (i : GroupId) (g : CovariantTunableGroup) : GroupArena :=
  { h with groups := aset i g h.groups }

def GroupArena.alloc (h : GroupArena) (g : CovariantTunableGroup) : GroupId × GroupArena :=
  (h.next, { groups := h.groups ++ [(h.next, g)], next := h.next + 1 })

/-- Every allocated id is below the allocation counter (true of every arena
reachable from the empty one). -/
def arenaWF (h : GroupArena) : Bool :=
  h.groups.all (fun p => decide (p.1 < h.next))

def emptyArena : GroupArena := { groups := [], next := 0 }

/-! ## TunableGroups (from `mlos_bench/tunables/tunable_groups.py`) -/

/-- The two dicts of `TunableGroups.__init__`: `_tunable_groups` (group name →
group) and `_index` (tunable name → owning group); groups are arena ids. -/
structure TunableGroups where
  tunable_groups : List (String × GroupId)
  index : List (String × GroupId)
  deriving DecidableEq, Repr

def TunableGroups.empty : TunableGroups := { tunable_groups := [], index := [] }

/-- The tunable-indexing loop of `_add_group`: for each tunable of the group in
order, raise `ValueError` if the name is already indexed (leaving the index
as mutated so far), else add the index entry. -/
def addTunablesToIndex (gid : GroupId) (gname : String) :
    List Tunable → List (String × GroupId) → Option MErr × List (String × GroupId)
  | [], idx => (none, idx)
  | t :: ts, idx =>
    if (alookup t.name idx).isSome then (some (.valueErrorDupTunable t.name gname), idx)
    else addTunablesToIndex gid gname ts (idx ++ [(t.name, gid)])

/-- `TunableGroups._add_group` (source lines 169–188): assert the group name is
new, then insert the group into the group map, then index its tunables one by
one, raising `ValueError` on a duplicate tunable name. On error the returned
state is the state at the point of the raise. -/
def TunableGroups._add_group (tg : TunableGroups) (gid : GroupId) (g : CovariantTunableGroup) :
    Option MErr × TunableGroups :=
  if (alookup g.name tg.tunable_groups).isSome then (some .assertionError, tg)
  else
    let tg1 : TunableGroups :=
      { tg with tunable_groups := tg.tunable_groups ++ [(g.name, gid)] }
    let r := addTunablesToIndex gid g.name g.tunables tg1.index
    (r.1, { tg1 with index := r.2 })

/-- One tunable's config entry: its domain and default (the `params` values of
the JSON config). -/
structure TunableCfg where
  domain : TunableDomain
  default : TunableValue
  deriving DecidableEq, Repr

/-- One covariant group's config entry: `cost` and `params`. -/
structure GroupCfg where
  cost : Int
  params : List (String × TunableCfg)
  deriving DecidableEq, Repr

/-- Modelled from the spec: constructing a `CovariantTunableGroup` from its
config — each tunable starts at its default value, flag clear. -/
def mkGroup (name : String) (cfg : GroupCfg) : CovariantTunableGroup :=
  { name := name
    cost := cfg.cost
    tunables := cfg.params.map (fun p =>
      { name := p.1, domain := p.2.domain, default := p.2.default, value := p.2.default })
    is_updated := false }

/-- The construction loop of `TunableGroups.__init__`: for each config entry,
build the group (a fresh object, hence a fresh arena id) and `_add_group` it. -/
def initLoop : GroupArena → TunableGroups → List (String × GroupCfg) →
    Option MErr × TunableGroups × GroupArena
  | h, tg, [] => (none, tg, h)
  | h, tg, (name, gc) :: rest =>
    let g := mkGroup name gc
    let r := h.alloc g
    let r2 := tg._add_group r.1 g
    match r2.1 with
    | some err => (some err, r2.2, r.2)
    | none => initLoop r.2 r2.2 rest

/-- `TunableGroups.__init__` (source lines 110–131): start from empty dicts and
`_add_group` one freshly built group per config entry. -/
def TunableGroups.init (h : GroupArena) (config : List (String × GroupCfg)) :
    Option MErr × TunableGroups × GroupArena :=
  initLoop h TunableGroups.empty config

/-- The loop of `TunableGroups.merge` (source lines 190–225): for each group of
the argument, add it if its name is new, else check `equals_defaults` against
the receiver's same-named group and raise `ValueError` if they differ. -/
def mergeLoop : GroupArena → TunableGroups → List (String × GroupId) →
    Option MErr × TunableGroups
  | _, r, [] => (none, r)
  | h, r, (_, gid) :: rest =>
    match h.get gid with
    | none => (some .assertionError, r)
    | some g =>
      match alookup g.name r.tunable_groups with
      | none =>
        let r2 := r._add_group gid g
        match r2.1 with
        | some err => (some err, r2.2)
        | none => mergeLoop h r2.2 rest
      | some rgid =>
        match h.get rgid with
        | none => (some .assertionError, r)
        | some rg =>
          if rg.equals_defaults g then mergeLoop h r rest
          else (some (.valueErrorOverlap g.name), r)

/-- `TunableGroups.merge`: iterate the argument's groups; the receiver's
existing groups are never written, only genuinely new groups are added (by
reference — the same arena id). -/
def TunableGroups.merge (h : GroupArena) (r o : TunableGroups) : Option MErr × TunableGroups :=
  mergeLoop h r o.tunable_groups

/-- The loop of `TunableGroups.subgroup` (source lines 312–339): for each
requested name, raise `KeyError` if it is not a group of the source, else
`_add_group` the *same* group object (same arena id) into the fresh result. -/
def subgroupLoop : GroupArena → TunableGroups → TunableGroups → List String →
    Except MErr TunableGroups
  | _, _, acc, [] => .ok acc
  | h, src, acc, name :: rest =>
    match alookup name src.tunable_groups with
    | none => .error (.keyError name)
    | some gid =>
      match h.get gid with
      | none => .error .assertionError
      | some g =>
        let r := acc._add_group gid g
        match r.1 with
        | some err => .error err
        | none => subgroupLoop h src r.2 rest

def TunableGroups.subgroup (h : GroupArena) (tg : TunableGroups) (names : List String) :
    Except MErr TunableGroups :=
  subgroupLoop h tg TunableGroups.empty names

/-- `TunableGroups.__getitem__`: current value of a single tunable via the
index (double lookup through the owning group). -/
def TunableGroups.getitem (h : GroupArena) (tg : TunableGroups) (name : String) :
    Except MErr TunableValue :=
  match alookup name tg.index with
  | none => .error (.keyError name)
  | some gid =>
    match h.get gid with
    | none => .error .assertionError
    | some g =>
      match g.get_tunable name with
      | none => .error (.keyError name)
      | some t => .ok t.value

/-- `TunableGroups.__setitem__`: route the write through the owning group so
the dirty flag fires; the arena cell of that group is updated in place. -/
def TunableGroups.setitem (h : GroupArena) (tg : TunableGroups) (name : String)
    (v : TunableValue) : Except MErr GroupArena :=
  match alookup name tg.index with
  | none => .error (.keyError name)
  | some gid =>
    match h.get gid with
    | none => .error .assertionError
    | some g =>
      match g.setValue name v with
      | .error e => .error e
      | .ok g1 => .ok (h.set gid g1)

/-- The `group_names or self.get_covariant_group_names()` idiom shared by
`is_updated`, `restore_defaults` and `reset`: `None` *and* the empty list both
fall through to the full group-name list (Python `or` on a falsy operand). -/
def effectiveNames (tg : TunableGroups) (gnames : Option (List String)) : List String :=
  match gnames with
  | none => akeys tg.tunable_groups
  | some l => if l.isEmpty then akeys tg.tunable_groups else l

/-- The short-circuiting `any` of `TunableGroups.is_updated` over the selected
group names (`KeyError` on an unknown name, as in the source's dict lookup). -/
def isUpdatedLoop (h : GroupArena) (tg : TunableGroups) : List String → Except MErr Bool
  | [] => .ok false
  | name :: rest =>
    match alookup name tg.tunable_groups with
    | none => .error (.keyError name)
    | some gid =>
      match h.get gid with
      | none => .error .assertionError
      | some g =>
        if g.is_updated then .ok true else isUpdatedLoop h tg rest

/-- `TunableGroups.is_updated` (source lines 371–388). -/
def TunableGroups.is_updated (h : GroupArena) (tg : TunableGroups)
    (gnames : Option (List String)) : Except MErr Bool :=
  isUpdatedLoop h tg (effectiveNames tg gnames)

/-- `TunableGroups.is_defaults` (source lines 390–399): all groups of the
collection are at their defaults. -/
def TunableGroups.is_defaults (h : GroupArena) (tg : TunableGroups) : Bool :=
  tg.tunable_groups.all (fun p =>
    match h.get p.2 with
    | some g => g.is_defaults
    | none => true)

/-- The loop of `TunableGroups.restore_defaults` (source lines 401–417). -/
def restoreLoop (tg : TunableGroups) : GroupArena → List String → Except MErr GroupArena
  | h, [] => .ok h
  | h, name :: rest =>
    match alookup name tg.tunable_groups with
    | none => .error (.keyError name)
    | some gid =>
      match h.get gid with
      | none => .error .assertionError
      | some g => restoreLoop tg (h.set gid g.restore_defaults) rest

def TunableGroups.restore_defaults (h : GroupArena) (tg : TunableGroups)
    (gnames : Option (List String)) : Except MErr GroupArena :=
  restoreLoop tg h (effectiveNames tg gnames)

/-- The loop of `TunableGroups.reset` (source lines 419–435). -/
def resetLoop (tg : TunableGroups) : GroupArena → List String → Except MErr GroupArena
  | h, [] => .ok h
  | h, name :: rest =>
    match alookup name tg.tunable_groups with
    | none => .error (.keyError name)
    | some gid =>
      match h.get gid with
      | none => .error .assertionError
      | some g => resetLoop tg (h.set gid g.reset_is_updated) rest

def TunableGroups.reset (h : GroupArena) (tg : TunableGroups)
    (gnames : Option (List String)) : Except MErr GroupArena :=
  resetLoop tg h (effectiveNames tg gnames)

/-- The `__setitem__` fold of the non-empty branch of `TunableGroups.assign`. -/
def setitemFold : GroupArena → TunableGroups → List (String × TunableValue) →
    Except MErr GroupArena
  | h, _, [] => .ok h
  | h, tg, (k, v) :: rest =>
    match tg.setitem h k v with
    | .error e => .error e
    | .ok h1 => setitemFold h1 tg rest

/-- `TunableGroups.assign` (source lines 437–463): an empty mapping restores
all defaults (not a no-op); a non-empty mapping applies each pair through
`__setitem__`. -/
def TunableGroups.assign (h : GroupArena) (tg : TunableGroups)
    (pv : List (String × TunableValue)) : Except MErr GroupArena :=
  if pv.isEmpty then tg.restore_defaults h none
  else setitemFold h tg pv

/-! ## Status (from `mlos_bench/environment/status.py`) and the optimizer layer -/

/-- The trial status enum of the source. -/
inductive Status
  | UNKNOWN
  | PENDING
  | READY
  | RUNNING
  | SUCCEEDED
  | CANCELED
  | FAILED
  | TIMED_OUT
  deriving DecidableEq, Repr

/-- `Status.is_good` from the source: not failed, canceled or timed out. -/
def Status.is_good (s : Status) : Bool :=
  !(decide (s = .CANCELED) || decide (s = .FAILED) || decide (s = .TIMED_OUT))

/-- Modelled from the spec: the `is_succeeded` property used by the optimizer
wrapper (the `environments.status` module carrying it is not among the
sources): true exactly for `SUCCEEDED`. -/
def Status.is_succeeded (s : Status) : Bool :=
  decide (s = .SUCCEEDED)

/-- A configuration row handed to a backend: tunable name to value. -/
abbrev ParamConfig := List (String × TunableValue)

/-- The `FlamlOptimizer` backend state (from
`mlos_core/optimizers/flaml_optimizer.py`): `evaluated_configs`, a dict from
the configuration hash to the `{config, score}` record. The ConfigSpace
configuration hash is embedded as the configuration itself (an injective
stand-in for the hash). -/
structure FlamlOptimizer where
  evaluated_configs : List (ParamConfig × (ParamConfig × Rat))
  deriving DecidableEq, Repr

/-- The row loop of `FlamlOptimizer._register`: for each configuration/score
pair, warn (`UserWarning`, non-fatal) if the configuration hash was already
registered, then store the record under the hash, overwriting any previous
one. -/
def flamlRegisterLoop : FlamlOptimizer → List String → List (ParamConfig × Rat) →
    List String × FlamlOptimizer
  | st, ws, [] => (ws, st)
  | st, ws, (cfg, sc) :: rest =>
    let ws1 := if (alookup cfg st.evaluated_configs).isSome
               then ws ++ ["Configuration was already registered"]
               else ws
    flamlRegisterLoop { evaluated_configs := aset cfg (cfg, sc) st.evaluated_configs } ws1 rest

/-- `FlamlOptimizer._register` (source lines 50–77), returning the warnings it
emitted alongside the new backend state. -/
def FlamlOptimizer._register (st : FlamlOptimizer) (rows : List (ParamConfig × Rat)) :
    List String × FlamlOptimizer :=
  flamlRegisterLoop st [] rows

/-- Modelled from the spec: `get_best_observation()` — the minimum-score
registered observation, or none when nothing is registered. -/
def FlamlOptimizer.bestObservation (st : FlamlOptimizer) : Option (Rat × ParamConfig) :=
  st.evaluated_configs.foldl
    (fun acc p =>
      match acc with
      | none => some (p.2.2, p.2.1)
      | some best => if p.2.2 < best.1 then some (p.2.2, p.2.1) else some best)
    none

/-- The `mlos_bench` optimizer wrapper state (`MlosCoreOptimizer`): the sign
used to normalize scores to minimization (`_opt_sign`, from the configured
minimize/maximize direction), the iteration counter `_iter`, and the
underlying `mlos_core` backend `_opt`. -/
structure MlosCoreOptimizer where
  opt_sign : Int
  iter : Nat
  opt : FlamlOptimizer
  deriving DecidableEq, Repr

/-- Modelled from the spec: the base `Optimizer.register` bookkeeping (the
`base_optimizer` module is not among the sources) — the score sign is
normalized once at the wrapper boundary so the backend always sees a
minimization-style score. -/
def baseRegisterScore (o : MlosCoreOptimizer) (score : Rat) : Rat :=
  score * (o.opt_sign : Rat)

/-- `MlosCoreOptimizer.register` (source lines 79–89): normalize the score via
the base class, forward to the backend only when the status is succeeded,
always advance the iteration counter, and return the normalized score. -/
def MlosCoreOptimizer.register (o : MlosCoreOptimizer) (params : ParamConfig)
    (status : Status) (score : Rat) : MlosCoreOptimizer × Rat :=
  let nscore := baseRegisterScore o score
  let opt1 := if status.is_succeeded
              then (FlamlOptimizer._register o.opt [(params, nscore)]).2
              else o.opt
  ({ o with opt := opt1, iter := o.iter + 1 }, nscore)

/-- The effective rows of `MlosCoreOptimizer.bulk_register`: scores normalized
by `_opt_sign`, rows zipped, and — when statuses are supplied — filtered to
the rows whose status is `SUCCEEDED`. -/
def bulkEffectiveRows (o : MlosCoreOptimizer) (configs : List ParamConfig)
    (scores : List Rat) (status : Option (List Status)) : List (ParamConfig × Rat) :=
  let rows := configs.zip (scores.map (fun s => s * (o.opt_sign : Rat)))
  match status with
  | none => rows
  | some sts => ((rows.zip sts).filter (fun rs => decide (rs.2 = Status.SUCCEEDED))).map Prod.fst

/-- `MlosCoreOptimizer.bulk_register` (source lines 51–71): the base-class
bookkeeping (modelled from the spec as succeeding), the status filter, the
dtype coercion (identity on this typed embedding), one batched backend
`register`, and the `True` result. The warnings emitted by the backend are
returned alongside. -/
def MlosCoreOptimizer.bulk_register (o : MlosCoreOptimizer) (configs : List ParamConfig)
    (scores : List Rat) (status : Option (List Status)) :
    List String × MlosCoreOptimizer × Bool :=
  let rows := bulkEffectiveRows o configs scores status
  let r := FlamlOptimizer._register o.opt rows
  (r.1, { o with opt := r.2 }, true)

/-! ## Basic lemmas about the dict embedding -/

theorem alookup_append_some {α β : Type} [DecidableEq α] {k : α} {v : β}
    {l1 l2 : List (α × β)} (h : alookup k l1 = some v) :
    alookup k (l1 ++ l2) = some v := by
  induction l1 with
  | nil => simp [alookup] at h
  | cons p rest ih =>
    simp only [alookup, List.cons_append] at h ⊢
    by_cases hp : p.1 = k
    · simpa [hp] using h
    · simp only [hp, if_false] at h ⊢
      exact ih h

theorem alookup_append_none {α β : Type} [DecidableEq α] {k : α}
    {l1 l2 : List (α × β)} (h : alookup k l1 = none) :
    alookup k (l1 ++ l2) = alookup k l2 := by
  induction l1 with
  | nil => simp
  | cons p rest ih =>
    simp only [alookup, List.cons_append] at h ⊢
    by_cases hp : p.1 = k
    · simp [hp] at h
    · simp only [hp, if_false] at h ⊢
      exact ih h

theorem alookup_eq_none_iff {α β : Type} [DecidableEq α] {k : α} {l : List (α × β)} :
    alookup k l = none ↔ k ∉ akeys l := by
  induction l with
  | nil => simp [alookup, akeys]
  | cons p rest ih =>
    simp only [alookup, akeys, List.map_cons, List.mem_cons]
    by_cases hp : p.1 = k
    · simp [hp]
    · simp only [hp, if_false, ih, akeys]
      constructor
      · intro h hk
        rcases hk with hk | hk
        · exact hp hk.symm
        · exact h hk
      · intro h hk
        exact h (Or.inr hk)

theorem alookup_isSome_iff {α β : Type} [DecidableEq α] {k : α} {l : List (α × β)} :
    (alookup k l).isSome ↔ k ∈ akeys l := by
  rcases h : alookup k l with _ | v
  · simp [alookup_eq_none_iff.mp h]
  · simp only [Option.isSome_some, true_iff]
    by_contra hk
    rw [alookup_eq_none_iff.mpr hk] at h
    exact Option.noConfusion h

theorem alookup_mem {α β : Type} [DecidableEq α] {k : α} {v : β} {l : List (α × β)}
    (h : alookup k l = some v) : (k, v) ∈ l := by
  induction l with
  | nil => simp [alookup] at h
  | cons p rest ih =>
    simp only [alookup] at h
    by_cases hp : p.1 = k
    · simp only [hp, if_true, Option.some.injEq] at h
      have hpk : p = (k, v) := by
        cases p
        simp only at hp h
        simp [hp, h]
      exact hpk ▸ List.mem_cons_self p rest
    · simp only [hp, if_false] at h
      exact List.mem_cons_of_mem _ (ih h)

theorem mem_alookup_of_nodup {α β : Type} [DecidableEq α] {k : α} {v : β} {l : List (α × β)}
    (hnd : (akeys l).Nodup) (h : (k, v) ∈ l) : alookup k l = some v := by
  induction l with
  | nil => simp at h
  | cons p rest ih =>
    simp only [akeys, List.map_cons, List.nodup_cons] at hnd
    rcases List.mem_cons.mp h with h | h
    · subst h
      simp [alookup]
    · have hk : p.1 ≠ k := by
        intro he
        exact hnd.1 (he ▸ (List.mem_map.mpr ⟨(k, v), h, rfl⟩))
      simp only [alookup, hk, if_false]
      exact ih hnd.2 h

theorem alookup_aset_self {α β : Type} [DecidableEq α] {k : α} {v : β} {l : List (α × β)} :
    alookup k (aset k v l) = some v := by
  induction l with
  | nil => simp [aset, alookup]
  | cons p rest ih =>
    simp only [aset]
    by_cases hp : p.1 = k
    · simp [hp, alookup]
    · simp [hp, alookup, ih]

theorem alookup_aset_ne {α β : Type} [DecidableEq α] {k k' : α} {v : β} {l : List (α × β)}
    (h : k' ≠ k) : alookup k (aset k' v l) = alookup k l := by
  induction l with
  | nil => simp [aset, alookup, h]
  | cons p rest ih =>
    simp only [aset]
    by_cases hp : p.1 = k'
    · simp [alookup, hp, h]
    · simp only [hp, if_false, alookup]
      by_cases hk : p.1 = k
      · simp [hk]
      · simp [hk, ih]

theorem alookup_map_value {α β γ : Type} [DecidableEq α] {k : α} (f : β → γ)
    (l : List (α × β)) :
    alookup k (l.map (fun p => (p.1, f p.2))) = (alookup k l).map f := by
  induction l with
  | nil => simp [alookup]
  | cons p rest ih =>
    simp only [List.map_cons, alookup]
    by_cases hp : p.1 = k
    · simp [hp]
    · simp [hp, ih]

theorem akeys_map_value {α β γ : Type} (f : β → γ) (l : List (α × β)) :
    akeys (l.map (fun p => (p.1, f p.2))) = akeys l := by
  simp [akeys, List.map_map, Function.comp]

theorem akeys_append {α β : Type} (l1 l2 : List (α × β)) :
    akeys (l1 ++ l2) = akeys l1 ++ akeys l2 := by
  simp [akeys]

/-! ## Basic lemmas about the arena -/

theorem GroupArena.get_set_self {h : GroupArena} {i : GroupId} {g : CovariantTunableGroup} :
    (h.set i g).get i = some g := by
  simp [GroupArena.get, GroupArena.set, alookup_aset_self]

theorem GroupArena.get_set_ne {h : GroupArena} {i j : GroupId} {g : CovariantTunableGroup}
    (hij : j ≠ i) : (h.set j g).get i = h.get i := by
  simp [GroupArena.get, GroupArena.set, alookup_aset_ne hij]

theorem GroupArena.get_set_isSome {h : GroupArena} {i j : GroupId} {g : CovariantTunableGroup}
    (hi : (h.get i).isSome) : ((h.set j g).get i).isSome := by
  by_cases hij : j = i
  · subst hij
    simp [GroupArena.get_set_self]
  · rw [GroupArena.get_set_ne hij]
    exact hi

theorem GroupArena.get_alloc_preserve {h h1 : GroupArena} {g g0 : CovariantTunableGroup}
    {nid : GroupId} {i : GroupId} (halloc : h.alloc g = (nid, h1))
    (hi : h.get i = some g0) : h1.get i = some g0 := by
  have : h1 = { groups := h.groups ++ [(h.next, g)], next := h.next + 1 } := by
    simpa [GroupArena.alloc] using (congrArg Prod.snd halloc).symm
  subst this
  simpa [GroupArena.get] using alookup_append_some hi

theorem arenaWF_bound {h : GroupArena} (hwf : arenaWF h = true) {i : GroupId}
    {g : CovariantTunableGroup} (hi : h.get i = some g) : i < h.next := by
  have hmem := alookup_mem hi
  have := List.all_eq_true.mp hwf _ hmem
  simpa using this

theorem GroupArena.get_alloc_fresh {h h1 : GroupArena} {g : CovariantTunableGroup}
    {nid : GroupId} (hwf : arenaWF h = true) (halloc : h.alloc g = (nid, h1)) :
    h1.get nid = some g := by
  have hn : nid = h.next := by
    simpa [GroupArena.alloc] using (congrArg Prod.fst halloc).symm
  have : h1 = { groups := h.groups ++ [(h.next, g)], next := h.next + 1 } := by
    simpa [GroupArena.alloc] using (congrArg Prod.snd halloc).symm
  subst this hn
  have hnone : alookup h.next h.groups = none := by
    rcases hres : alookup h.next h.groups with _ | g0
    · rfl
    · exact absurd (arenaWF_bound hwf hres) (lt_irrefl _)
  simp [GroupArena.get, alookup_append_none hnone, alookup]

theorem arenaWF_alloc {h h1 : GroupArena} {g : CovariantTunableGroup} {nid : GroupId}
    (hwf : arenaWF h = true) (halloc : h.alloc g = (nid, h1)) : arenaWF h1 = true := by
  have : h1 = { groups := h.groups ++ [(h.next, g)], next := h.next + 1 } := by
    simpa [GroupArena.alloc] using (congrArg Prod.snd halloc).symm
  subst this
  simp only [arenaWF, List.all_eq_true] at hwf ⊢
  intro p hp
  rcases List.mem_append.mp hp with hp | hp
  · have h2 := hwf p hp
    simp only [decide_eq_true_eq] at h2
    exact decide_eq_true_eq.mpr (Nat.lt_succ_of_lt h2)
  · simp only [List.mem_singleton] at hp
    subst hp
    simp

/-! ## Sample data (used by witnesses and counterexamples) -/

def tunX : Tunable :=
  { name := "x", domain := .categorical ["a", "b"], default := .s "a", value := .s "a" }

def groupG1 : CovariantTunableGroup :=
  { name := "g1", cost := 1, tunables := [tunX], is_updated := false }

def groupG2 : CovariantTunableGroup :=
  { name := "g2", cost := 2, tunables := [tunX], is_updated := false }

def tgOneGroup : TunableGroups :=
  { tunable_groups := [("g1", 0)], index := [("x", 0)] }

/-! ## C10 — empty selection falls through to all groups -/

/--
C10: passing an empty list of group names to `is_updated`, `restore_defaults`
or `reset` behaves identically to passing `None`: the empty selection falls
through (Python `or`) to the full group-name list, so the operation considers
or affects all groups; an empty selection never means "no groups".
-/
theorem C10_empty_selection_means_all_groups (h : GroupArena) (tg : TunableGroups) :
    tg.is_updated h (some []) = tg.is_updated h none ∧
    tg.restore_defaults h (some []) = tg.restore_defaults h none ∧
    tg.reset h (some []) = tg.reset h none ∧
    effectiveNames tg (some []) = akeys tg.tunable_groups ∧
    tg.is_updated h (some []) = isUpdatedLoop h tg (akeys tg.tunable_groups) ∧
    tg.restore_defaults h (some []) = restoreLoop tg h (akeys tg.tunable_groups) ∧
    tg.reset h (some []) = resetLoop tg h (akeys tg.tunable_groups) :=
  ⟨rfl, rfl, rfl, rfl, rfl, rfl, rfl⟩

/-! ## C3 — the insert of `_add_group` is not atomic (corrected) -/

/-- Any error of the tunable-indexing loop is the duplicate-tunable
`ValueError` naming the inserted group. -/
theorem addTunablesToIndex_error {gid : GroupId} {gname : String} :
    ∀ {ts : List Tunable} {idx : List (String × GroupId)} {e : MErr}
      {idx2 : List (String × GroupId)},
      addTunablesToIndex gid gname ts idx = (some e, idx2) →
      ∃ tn, e = .valueErrorDupTunable tn gname := by
  intro ts
  induction ts with
  | nil => intro idx e idx2 h; simp [addTunablesToIndex] at h
  | cons t rest ih =>
    intro idx e idx2 h
    simp only [addTunablesToIndex] at h
    by_cases hdup : (alookup t.name idx).isSome
    · simp only [hdup, if_true, Prod.mk.injEq, Option.some.injEq] at h
      exact ⟨t.name, h.1.symm⟩
    · simp only [hdup, if_false] at h
      exact ih h

/--
C3 counterexample: adding a group whose only tunable name collides with one
already indexed fails with the duplicate-tunable `ValueError`, yet the
returned state's group map has already been mutated (it contains the new
group), so the two duplicate checks do not both run before mutation.
-/
theorem C3_add_group_not_atomic_counterexample :
    (tgOneGroup._add_group 1 groupG2).1 = some (MErr.valueErrorDupTunable "x" "g2") ∧
    (tgOneGroup._add_group 1 groupG2).2 ≠ tgOneGroup ∧
    (tgOneGroup._add_group 1 groupG2).2.tunable_groups = [("g1", 0), ("g2", 1)] := by
  decide

/--
C3 amended: `_add_group` runs the duplicate-group-name check (the `assert`)
before any mutation — failing it leaves the receiver unchanged — but the
duplicate-tunable check runs per tunable only after the group has been
inserted into the group map; a duplicate-tunable failure therefore returns a
state whose group map already contains the new group (non-atomic insert).
-/
theorem C3_add_group_checks (tg : TunableGroups) (gid : GroupId) (g : CovariantTunableGroup) :
    ((alookup g.name tg.tunable_groups).isSome = true →
      tg._add_group gid g = (some .assertionError, tg)) ∧
    (∀ e tg2, (alookup g.name tg.tunable_groups).isSome = false →
      tg._add_group gid g = (some e, tg2) →
      (∃ tn, e = .valueErrorDupTunable tn g.name) ∧
      tg2.tunable_groups = tg.tunable_groups ++ [(g.name, gid)]) := by
  constructor
  · intro hdup
    simp [TunableGroups._add_group, hdup]
  · intro e tg2 hdup hadd
    simp only [TunableGroups._add_group, hdup, Bool.false_eq_true, if_false] at hadd
    rcases hr : addTunablesToIndex gid g.name g.tunables
        ({ tg with tunable_groups := tg.tunable_groups ++ [(g.name, gid)]} :
          TunableGroups).index with ⟨e1, idx2⟩
    rw [hr] at hadd
    simp only [Prod.mk.injEq] at hadd
    rcases hadd with ⟨he, htg2⟩
    subst he
    refine ⟨addTunablesToIndex_error hr, ?_⟩
    rw [← htg2]

theorem C3_add_group_checks_witness :
    tgOneGroup._add_group 0 groupG1 = (some .assertionError, tgOneGroup) :=
  (C3_add_group_checks tgOneGroup 0 groupG1).1 (by decide)

/-! ## C8 — register is status-gated -/

/--
C8: for every `register(tunables, status, score)` call on the mlos_core
optimizer wrapper with a non-SUCCEEDED status, the underlying backend is not
invoked (its state, and hence its best observation, are unchanged), while the
wrapper still advances its iteration counter and returns the sign-normalized
score.
-/
theorem C8_register_status_gated (o : MlosCoreOptimizer) (params : ParamConfig)
    (status : Status) (score : Rat) (h : status ≠ Status.SUCCEEDED) :
    (o.register params status score).1.opt = o.opt ∧
    (o.register params status score).1.opt.bestObservation = o.opt.bestObservation ∧
    (o.register params status score).1.iter = o.iter + 1 ∧
    (o.register params status score).2 = score * (o.opt_sign : Rat) := by
  have hs : status.is_succeeded = false := by
    simp [Status.is_succeeded, h]
  refine ⟨?_, ?_, ?_, ?_⟩ <;>
    simp [MlosCoreOptimizer.register, hs, baseRegisterScore]

def sampleOptimizer : MlosCoreOptimizer :=
  { opt_sign := -1, iter := 3, opt := { evaluated_configs := [] } }

theorem C8_register_status_gated_witness :
    (sampleOptimizer.register [("x", TunableValue.s "a")] Status.FAILED 5).1.opt =
      sampleOptimizer.opt ∧
    (sampleOptimizer.register [("x", TunableValue.s "a")] Status.FAILED 5).1.opt.bestObservation =
      sampleOptimizer.opt.bestObservation ∧
    (sampleOptimizer.register [("x", TunableValue.s "a")] Status.FAILED 5).1.iter =
      sampleOptimizer.iter + 1 ∧
    (sampleOptimizer.register [("x", TunableValue.s "a")] Status.FAILED 5).2 =
      5 * ((sampleOptimizer.opt_sign : Int) : Rat) :=
  C8_register_status_gated sampleOptimizer [("x", TunableValue.s "a")] Status.FAILED 5
    (by decide)

/-! ## C9 — duplicate bulk registration warns but succeeds -/

theorem alookup_aset_isSome {α β : Type} [DecidableEq α] {k k' : α} {v : β}
    {l : List (α × β)} (h : (alookup k l).isSome) :
    (alookup k (aset k' v l)).isSome := by
  by_cases hk : k' = k
  · subst hk
    simp [alookup_aset_self]
  · rw [alookup_aset_ne hk]
    exact h

/-- The score of the last row carrying the given configuration, if any — the
record left in `evaluated_configs` after the batch, since later rows overwrite
earlier ones at the same configuration hash. -/
def lastRowFor (cfg : ParamConfig) : List (ParamConfig × Rat) → Option Rat
  | [] => none
  | r :: rest =>
    match lastRowFor cfg rest with
    | some s => some s
    | none => if r.1 = cfg then some r.2 else none

theorem lastRowFor_isSome_of_mem {cfg : ParamConfig} {sc : Rat} :
    ∀ {rows : List (ParamConfig × Rat)}, (cfg, sc) ∈ rows →
      ∃ s, lastRowFor cfg rows = some s := by
  intro rows
  induction rows with
  | nil => intro hmem; simp at hmem
  | cons r rest ih =>
    intro hmem
    rcases List.mem_cons.mp hmem with hmem | hmem
    · cases hl : lastRowFor cfg rest with
      | some s => exact ⟨s, by simp [lastRowFor, hl]⟩
      | none =>
        refine ⟨sc, ?_⟩
        simp only [lastRowFor, hl]
        rw [← hmem]
        simp
    · rcases ih hmem with ⟨s, hs⟩
      exact ⟨s, by simp [lastRowFor, hs]⟩

/-- The register loop only ever appends warnings. -/
theorem flamlLoop_ws_extends :
    ∀ (rows : List (ParamConfig × Rat)) (st : FlamlOptimizer) (ws : List String),
      ∃ tailw, (flamlRegisterLoop st ws rows).1 = ws ++ tailw := by
  intro rows
  induction rows with
  | nil => intro st ws; exact ⟨[], by simp [flamlRegisterLoop]⟩
  | cons r rest ih =>
    intro st ws
    rcases r with ⟨c0, s0⟩
    simp only [flamlRegisterLoop]
    by_cases hdup : (alookup c0 st.evaluated_configs).isSome
    · simp only [hdup, if_true]
      rcases ih { evaluated_configs := aset c0 (c0, s0) st.evaluated_configs }
        (ws ++ ["Configuration was already registered"]) with ⟨t, ht⟩
      exact ⟨"Configuration was already registered" :: t, by rw [ht]; simp⟩
    · simp only [hdup, Bool.false_eq_true, if_false]
      exact ih _ ws

/-- After the register loop, a configuration is mapped to its last row of the
batch, and to its previous record if the batch never mentions it. -/
theorem flamlLoop_lookup (cfg : ParamConfig) :
    ∀ (rows : List (ParamConfig × Rat)) (st : FlamlOptimizer) (ws : List String),
      alookup cfg (flamlRegisterLoop st ws rows).2.evaluated_configs =
        match lastRowFor cfg rows with
        | some s => some (cfg, s)
        | none => alookup cfg st.evaluated_configs := by
  intro rows
  induction rows with
  | nil => intro st ws; simp [flamlRegisterLoop, lastRowFor]
  | cons r rest ih =>
    intro st ws
    rcases r with ⟨c0, s0⟩
    simp only [flamlRegisterLoop]
    rw [ih]
    cases hl : lastRowFor cfg rest with
    | some s => simp [lastRowFor, hl]
    | none =>
      simp only [lastRowFor, hl]
      by_cases hc : c0 = cfg
      · subst hc
        simp [alookup_aset_self]
      · simp [hc, alookup_aset_ne hc]

/-- A batch containing a row whose configuration is already registered — in
the backend, or earlier within the same batch — makes the register loop emit
at least one warning, wherever in the batch that row sits. -/
theorem flamlLoop_warns {cfg : ParamConfig} {sc : Rat} {post : List (ParamConfig × Rat)} :
    ∀ (pre : List (ParamConfig × Rat)) (st : FlamlOptimizer) (ws : List String),
      ((alookup cfg st.evaluated_configs).isSome ∨ ∃ s0, (cfg, s0) ∈ pre) →
      (flamlRegisterLoop st ws (pre ++ (cfg, sc) :: post)).1 ≠ [] := by
  intro pre
  induction pre with
  | nil =>
    intro st ws hdup
    have hs : (alookup cfg st.evaluated_configs).isSome := by
      rcases hdup with hdup | ⟨s0, hmem⟩
      · exact hdup
      · simp at hmem
    simp only [List.nil_append, flamlRegisterLoop, hs, if_true]
    rcases flamlLoop_ws_extends post
        { evaluated_configs := aset cfg (cfg, sc) st.evaluated_configs }
        (ws ++ ["Configuration was already registered"]) with ⟨t, ht⟩
    rw [ht]
    simp
  | cons p rest ih =>
    intro st ws hdup
    simp only [List.cons_append, flamlRegisterLoop]
    apply ih
    rcases hdup with hdup | ⟨s0, hmem⟩
    · exact Or.inl (alookup_aset_isSome hdup)
    · rcases List.mem_cons.mp hmem with hp | hp
      · left
        have hc : p.1 = cfg := by rw [← hp]
        rw [← hc]
        simp [alookup_aset_self]
      · exact Or.inr ⟨s0, hp⟩

/--
C9: a `bulk_register` call whose effective rows repeat an already-registered
configuration — one present in the backend from an earlier call, or repeated
earlier within the same batch — emits a user-visible warning, records the
configuration by overwriting the entry at its configuration hash with the
batch's last row for it, and still returns success (`True`); the repeated row
may sit anywhere in the batch.
-/
theorem C9_bulk_register_duplicate_warns (o : MlosCoreOptimizer)
    (configs : List ParamConfig) (scores : List Rat) (status : Option (List Status))
    (pre post : List (ParamConfig × Rat)) (cfg : ParamConfig) (sc : Rat)
    (hrows : bulkEffectiveRows o configs scores status = pre ++ (cfg, sc) :: post)
    (hdup : (alookup cfg o.opt.evaluated_configs).isSome ∨ ∃ s0, (cfg, s0) ∈ pre) :
    (o.bulk_register configs scores status).2.2 = true ∧
    (o.bulk_register configs scores status).1 ≠ [] ∧
    ∃ s, lastRowFor cfg (bulkEffectiveRows o configs scores status) = some s ∧
      alookup cfg (o.bulk_register configs scores status).2.1.opt.evaluated_configs =
        some (cfg, s) := by
  refine ⟨rfl, ?_, ?_⟩
  · show (FlamlOptimizer._register o.opt (bulkEffectiveRows o configs scores status)).1 ≠ []
    rw [hrows]
    exact flamlLoop_warns pre o.opt [] hdup
  · have hmem : (cfg, sc) ∈ bulkEffectiveRows o configs scores status := by
      rw [hrows]
      exact List.mem_append_right _ (List.mem_cons_self _ _)
    rcases lastRowFor_isSome_of_mem hmem with ⟨s, hs⟩
    refine ⟨s, hs, ?_⟩
    have hl := flamlLoop_lookup cfg (bulkEffectiveRows o configs scores status) o.opt []
    simp only [hs] at hl
    exact hl

def sampleCfg : ParamConfig := [("x", TunableValue.s "a")]

def sampleCfgB : ParamConfig := [("x", TunableValue.s "b")]

def sampleWarmFlaml : FlamlOptimizer :=
  { evaluated_configs := [(sampleCfg, (sampleCfg, 3))] }

def sampleWarmOptimizer : MlosCoreOptimizer :=
  { opt_sign := 1, iter := 0, opt := sampleWarmFlaml }

theorem C9_bulk_register_duplicate_warns_witness :
    (sampleWarmOptimizer.bulk_register [sampleCfg, sampleCfgB] [3, 4] none).2.2 = true ∧
    (sampleWarmOptimizer.bulk_register [sampleCfg, sampleCfgB] [3, 4] none).1 ≠ [] ∧
    ∃ s, lastRowFor sampleCfg
        (bulkEffectiveRows sampleWarmOptimizer [sampleCfg, sampleCfgB] [3, 4] none) =
        some s ∧
      alookup sampleCfg
        (sampleWarmOptimizer.bulk_register
          [sampleCfg, sampleCfgB] [3, 4] none).2.1.opt.evaluated_configs =
        some (sampleCfg, s) :=
  C9_bulk_register_duplicate_warns sampleWarmOptimizer [sampleCfg, sampleCfgB] [3, 4] none
    [] [(sampleCfgB, 4)] sampleCfg 3
    (by norm_num [bulkEffectiveRows, sampleWarmOptimizer]) (Or.inl (by decide))

/-! ## C1/C2 — merge: frame property and overlap incompatibility -/

/-- All groups of a `TunableGroups` view resolve in the arena (no dangling
references — automatically true of Python object references). -/
def resolvesB (h : GroupArena) (tg : TunableGroups) : Bool :=
  tg.tunable_groups.all (fun p => (h.get p.2).isSome)

/-- The observable state of one named group of a view: its current values and
its dirty flag. -/
def TunableGroups.groupState (h : GroupArena) (tg : TunableGroups) (gname : String) :
    Option (List (String × TunableValue) × Bool) :=
  match alookup gname tg.tunable_groups with
  | none => none
  | some gid => (h.get gid).map (fun g => (g.get_tunable_values_dict, g.is_updated))

/-- `_add_group` never rebinds an existing group name: lookups that succeeded
before still return the same id afterwards, on success and on error alike. -/
theorem _add_group_lookup_preserved {tg : TunableGroups} {gid : GroupId}
    {g : CovariantTunableGroup} {k : String} {v : GroupId}
    (h : alookup k tg.tunable_groups = some v) :
    alookup k ((tg._add_group gid g).2).tunable_groups = some v := by
  unfold TunableGroups._add_group
  by_cases hdup : (alookup g.name tg.tunable_groups).isSome
  · simp [hdup, h]
  · simp only [hdup, Bool.false_eq_true, if_false]
    exact alookup_append_some h

/-- When the group name is new, the group map after `_add_group` is the old
map with the new binding appended, whether or not the call raised. -/
theorem _add_group_snd_map {tg : TunableGroups} {gid : GroupId} {g : CovariantTunableGroup}
    (hdup : (alookup g.name tg.tunable_groups).isSome = false) :
    ((tg._add_group gid g).2).tunable_groups = tg.tunable_groups ++ [(g.name, gid)] := by
  simp [TunableGroups._add_group, hdup]

/-- When the group name is new, any error raised by `_add_group` is the
duplicate-tunable `ValueError`. -/
theorem _add_group_fst_error {tg : TunableGroups} {gid : GroupId} {g : CovariantTunableGroup}
    {e : MErr} (hdup : (alookup g.name tg.tunable_groups).isSome = false)
    (he : (tg._add_group gid g).1 = some e) :
    ∃ tn, e = .valueErrorDupTunable tn g.name := by
  simp only [TunableGroups._add_group, hdup, Bool.false_eq_true, if_false] at he
  rcases hr : addTunablesToIndex gid g.name g.tunables tg.index with ⟨e1, idx2⟩
  have : e1 = some e := by
    have := congrArg Prod.fst hr
    simp only at this
    rw [← this]
    exact he
  subst this
  exact addTunablesToIndex_error hr

/-- `merge` never rebinds an existing group name of the receiver, on success
and on error alike. -/
theorem mergeLoop_lookup_preserved {h : GroupArena} {k : String} {v : GroupId} :
    ∀ (olist : List (String × GroupId)) (r : TunableGroups),
      alookup k r.tunable_groups = some v →
      alookup k ((mergeLoop h r olist).2).tunable_groups = some v := by
  intro olist
  induction olist with
  | nil => intro r hr; simpa [mergeLoop] using hr
  | cons p rest ih =>
    intro r hr
    rcases p with ⟨n1, gid⟩
    cases hg : h.get gid with
    | none => simpa [mergeLoop, hg] using hr
    | some g =>
      cases hlook : alookup g.name r.tunable_groups with
      | none =>
        cases he : (r._add_group gid g).1 with
        | none =>
          simp only [mergeLoop, hg, hlook, he]
          exact ih _ (_add_group_lookup_preserved hr)
        | some err =>
          simp only [mergeLoop, hg, hlook, he]
          exact _add_group_lookup_preserved hr
      | some rgid =>
        cases hrg : h.get rgid with
        | none => simpa [mergeLoop, hg, hlook, hrg] using hr
        | some rg =>
          cases heq : rg.equals_defaults g with
          | false => simpa [mergeLoop, hg, hlook, hrg, heq] using hr
          | true =>
            simp only [mergeLoop, hg, hlook, hrg, heq, if_true]
            exact ih _ hr

/--
C1: when the receiver and the argument both contain a same-named covariant
group whose member names, domains and defaults agree (`equals_defaults`) but
whose current values differ, `merge` leaves the receiver's existing group
untouched: the name stays bound to the same group object (arena id), whose
current values and dirty flag are exactly as before (`merge` performs no
arena write at all — its result carries no new arena); every pre-existing
binding of the receiver is preserved, and in the direct case where the
argument consists of just the overlapping group, `merge` completes and
returns the receiver unchanged.
-/
theorem C1_merge_preserves_receiver_group (h : GroupArena) (r o : TunableGroups)
    (gname : String) (rgid ogid : GroupId) (rg og : CovariantTunableGroup)
    (hr : alookup gname r.tunable_groups = some rgid)
    (hrg : h.get rgid = some rg)
    (ho : alookup gname o.tunable_groups = some ogid)
    (hog : h.get ogid = some og)
    (hname : og.name = gname)
    (hmeta : rg.equals_defaults og = true)
    (hvals : rg.get_tunable_values_dict ≠ og.get_tunable_values_dict) :
    alookup gname ((r.merge h o).2).tunable_groups = some rgid ∧
    ((r.merge h o).2).groupState h gname =
      some (rg.get_tunable_values_dict, rg.is_updated) ∧
    (∀ k v, alookup k r.tunable_groups = some v →
      alookup k ((r.merge h o).2).tunable_groups = some v) ∧
    (o.tunable_groups = [(gname, ogid)] → r.merge h o = (none, r)) := by
  have hpres : alookup gname ((r.merge h o).2).tunable_groups = some rgid :=
    mergeLoop_lookup_preserved o.tunable_groups r hr
  refine ⟨hpres, ?_, ?_, ?_⟩
  · simp [TunableGroups.groupState, hpres, hrg]
  · intro k v hk
    exact mergeLoop_lookup_preserved o.tunable_groups r hk
  · intro hsingle
    rw [TunableGroups.merge, hsingle]
    simp [mergeLoop, hog, hname, hr, hrg, hmeta]

def rgSample : CovariantTunableGroup :=
  { name := "g1", cost := 1
    tunables := [{ name := "x", domain := .categorical ["a", "b"],
                   default := .s "a", value := .s "b" }]
    is_updated := true }

def ogSample : CovariantTunableGroup :=
  { name := "g1", cost := 5, tunables := [tunX], is_updated := false }

def arenaSample : GroupArena := { groups := [(0, rgSample), (1, ogSample)], next := 2 }

def rSample : TunableGroups := { tunable_groups := [("g1", 0)], index := [("x", 0)] }

def oSample : TunableGroups := { tunable_groups := [("g1", 1)], index := [("x", 1)] }

theorem C1_merge_preserves_receiver_group_witness :
    alookup "g1" ((rSample.merge arenaSample oSample).2).tunable_groups = some 0 ∧
    ((rSample.merge arenaSample oSample).2).groupState arenaSample "g1" =
      some (rgSample.get_tunable_values_dict, rgSample.is_updated) ∧
    (∀ k v, alookup k rSample.tunable_groups = some v →
      alookup k ((rSample.merge arenaSample oSample).2).tunable_groups = some v) ∧
    (oSample.tunable_groups = [("g1", 1)] → rSample.merge arenaSample oSample = (none, rSample)) :=
  C1_merge_preserves_receiver_group arenaSample rSample oSample "g1" 0 1 rgSample ogSample
    (by decide) (by decide) (by decide) (by decide) (by decide) (by decide) (by decide)

/-- If the argument list contains a group whose name collides with a
receiver group that is not `equals_defaults`-compatible, the merge loop does
not complete. -/
theorem mergeLoop_overlap_fails {h : GroupArena} {ogid rgid : GroupId}
    {og rg : CovariantTunableGroup} {n0 : String}
    (hog : h.get ogid = some og) (hrg : h.get rgid = some rg)
    (hmeta : rg.equals_defaults og = false) :
    ∀ (olist : List (String × GroupId)) (r : TunableGroups),
      (n0, ogid) ∈ olist →
      alookup og.name r.tunable_groups = some rgid →
      (mergeLoop h r olist).1 ≠ none := by
  intro olist
  induction olist with
  | nil => intro r hmem; simp at hmem
  | cons p rest ih =>
    intro r hmem hr
    rcases p with ⟨n1, gid⟩
    rcases List.mem_cons.mp hmem with hhead | htail
    · have hn : n1 = n0 ∧ gid = ogid := by
        have h1 := congrArg Prod.fst hhead
        have h2 := congrArg Prod.snd hhead
        simp only at h1 h2
        exact ⟨h1.symm, h2.symm⟩
      rcases hn with ⟨hn1, hgid⟩
      subst hn1 hgid
      simp [mergeLoop, hog, hr, hrg, hmeta]
    · cases hg : h.get gid with
      | none => simp [mergeLoop, hg]
      | some g =>
        cases hlook : alookup g.name r.tunable_groups with
        | none =>
          cases he : (r._add_group gid g).1 with
          | none =>
            simp only [mergeLoop, hg, hlook, he]
            exact ih _ htail (_add_group_lookup_preserved hr)
          | some err => simp [mergeLoop, hg, hlook, he]
        | some rgid2 =>
          cases hrg2 : h.get rgid2 with
          | none => simp [mergeLoop, hg, hlook, hrg2]
          | some rg2 =>
            cases heq : rg2.equals_defaults g with
            | false => simp [mergeLoop, hg, hlook, hrg2, heq]
            | true =>
              simp only [mergeLoop, hg, hlook, hrg2, heq, if_true]
              exact ih _ htail hr

/-- Under well-formed (non-dangling) views, any error raised by the merge
loop is one of the two `ValueError` raises of the source (Python's exception
class for both the duplicate-tunable and the incompatible-overlap failure). -/
theorem mergeLoop_error_isValueError {h : GroupArena} :
    ∀ (olist : List (String × GroupId)) (r : TunableGroups),
      resolvesB h r = true →
      (∀ p ∈ olist, (h.get p.2).isSome) →
      ∀ e, (mergeLoop h r olist).1 = some e → e.isValueError = true := by
  intro olist
  induction olist with
  | nil => intro r _ _ e he; simp [mergeLoop] at he
  | cons p rest ih =>
    intro r hres holist e he
    rcases p with ⟨n1, gid⟩
    have hgid : (h.get gid).isSome := holist (n1, gid) (List.mem_cons_self _ _)
    cases hg : h.get gid with
    | none => rw [hg] at hgid; simp at hgid
    | some g =>
      cases hlook : alookup g.name r.tunable_groups with
      | none =>
        cases hadd : (r._add_group gid g).1 with
        | none =>
          simp only [mergeLoop, hg, hlook, hadd] at he
          have hres2 : resolvesB h (r._add_group gid g).2 = true := by
            have hmap := @_add_group_snd_map r gid g (by simp [hlook])
            simp only [resolvesB, List.all_eq_true] at hres ⊢
            intro q hq
            rw [hmap] at hq
            rcases List.mem_append.mp hq with hq | hq
            · exact hres q hq
            · simp only [List.mem_singleton] at hq
              subst hq
              simpa using hgid
          exact ih _ hres2 (fun q hq => holist q (List.mem_cons_of_mem _ hq)) e he
        | some err =>
          simp only [mergeLoop, hg, hlook, hadd, Option.some.injEq] at he
          subst he
          rcases _add_group_fst_error (by simp [hlook]) hadd with ⟨tn, hterr⟩
          subst hterr
          rfl
      | some rgid2 =>
        have hrmem : (rgid2 : GroupId) ∈ (r.tunable_groups.map Prod.snd) :=
          List.mem_map.mpr ⟨(g.name, rgid2), alookup_mem hlook, rfl⟩
        have hrsome : (h.get rgid2).isSome := by
          simp only [resolvesB, List.all_eq_true] at hres
          exact hres (g.name, rgid2) (alookup_mem hlook)
        cases hrg2 : h.get rgid2 with
        | none => rw [hrg2] at hrsome; simp at hrsome
        | some rg2 =>
          cases heq : rg2.equals_defaults g with
          | false =>
            simp only [mergeLoop, hg, hlook, hrg2, heq, Bool.false_eq_true, if_false,
              Option.some.injEq] at he
            subst he
            rfl
          | true =>
            simp only [mergeLoop, hg, hlook, hrg2, heq, if_true] at he
            exact ih _ hres (fun q hq => holist q (List.mem_cons_of_mem _ hq)) e he

/--
C2: when the receiver and the argument contain same-named covariant groups
for which `equals_defaults` is false (differing member names, domains or
defaults), `merge` fails rather than completing; under non-dangling views the
failure is a `ValueError` — Python's class for the spec's
`IncompatibleGroupsError` — and in the direct case where the argument
consists of just the overlapping group it is exactly the incompatible-overlap
error, with the receiver unchanged.
-/
theorem C2_merge_incompatible_overlap_fails (h : GroupArena) (r o : TunableGroups)
    (n0 : String) (rgid ogid : GroupId) (rg og : CovariantTunableGroup)
    (hmem : (n0, ogid) ∈ o.tunable_groups)
    (hog : h.get ogid = some og)
    (hr : alookup og.name r.tunable_groups = some rgid)
    (hrg : h.get rgid = some rg)
    (hmeta : rg.equals_defaults og = false) :
    (r.merge h o).1 ≠ none ∧
    (resolvesB h r = true → (∀ p ∈ o.tunable_groups, (h.get p.2).isSome) →
      ∀ e, (r.merge h o).1 = some e → e.isValueError = true) ∧
    (o.tunable_groups = [(n0, ogid)] →
      r.merge h o = (some (.valueErrorOverlap og.name), r)) := by
  refine ⟨mergeLoop_overlap_fails hog hrg hmeta o.tunable_groups r hmem hr, ?_, ?_⟩
  · intro hres holist e he
    exact mergeLoop_error_isValueError o.tunable_groups r hres holist e he
  · intro hsingle
    rw [TunableGroups.merge, hsingle]
    simp [mergeLoop, hog, hr, hrg, hmeta]

def ogIncompatible : CovariantTunableGroup :=
  { name := "g1", cost := 1
    tunables := [{ name := "x", domain := .categorical ["a", "b", "c"],
                   default := .s "c", value := .s "c" }]
    is_updated := false }

def arenaIncompatible : GroupArena :=
  { groups := [(0, rgSample), (1, ogIncompatible)], next := 2 }

theorem C2_merge_incompatible_overlap_fails_witness :
    (rSample.merge arenaIncompatible oSample).1 ≠ none ∧
    (resolvesB arenaIncompatible rSample = true →
      (∀ p ∈ oSample.tunable_groups, (arenaIncompatible.get p.2).isSome) →
      ∀ e, (rSample.merge arenaIncompatible oSample).1 = some e → e.isValueError = true) ∧
    (oSample.tunable_groups = [("g1", 1)] →
      rSample.merge arenaIncompatible oSample =
        (some (.valueErrorOverlap ogIncompatible.name), rSample)) :=
  C2_merge_incompatible_overlap_fails arenaIncompatible rSample oSample "g1" 0 1
    rgSample ogIncompatible (by decide) (by decide) (by decide) (by decide) (by decide)

/-! ## C5 — assign with an empty mapping restores all defaults -/

/-- A group just restored to defaults satisfies `is_defaults`. -/
theorem restore_defaults_is_defaults (g : CovariantTunableGroup) :
    g.restore_defaults.is_defaults = true := by
  simp [CovariantTunableGroup.restore_defaults, CovariantTunableGroup.is_defaults,
    List.all_eq_true]

/-- The restore loop succeeds whenever every selected name is a group of the
view and resolves in the arena. -/
theorem restoreLoop_ok (tg : TunableGroups) :
    ∀ (names : List String) (h : GroupArena),
      (∀ name ∈ names, ∃ gid, alookup name tg.tunable_groups = some gid ∧
        (h.get gid).isSome) →
      ∃ h2, restoreLoop tg h names = .ok h2 := by
  intro names
  induction names with
  | nil => intro h _; exact ⟨h, rfl⟩
  | cons name rest ih =>
    intro h hall
    rcases hall name (List.mem_cons_self _ _) with ⟨gid, hgid, hsome⟩
    cases hg : h.get gid with
    | none => rw [hg] at hsome; simp at hsome
    | some g =>
      simp only [restoreLoop, hgid, hg]
      apply ih
      intro n hn
      rcases hall n (List.mem_cons_of_mem _ hn) with ⟨gid2, hgid2, hsome2⟩
      exact ⟨gid2, hgid2, GroupArena.get_set_isSome hsome2⟩

/-- The restore loop never un-restores: a group cell that is at defaults stays
at defaults (every write of the loop writes a restored group). -/
theorem restoreLoop_preserves_defaults (tg : TunableGroups) :
    ∀ (names : List String) (h h2 : GroupArena) (gid : GroupId)
      (g : CovariantTunableGroup),
      restoreLoop tg h names = .ok h2 →
      h.get gid = some g → g.is_defaults = true →
      ∃ g2, h2.get gid = some g2 ∧ g2.is_defaults = true := by
  intro names
  induction names with
  | nil =>
    intro h h2 gid g hok hg hdef
    simp only [restoreLoop, Except.ok.injEq] at hok
    subst hok
    exact ⟨g, hg, hdef⟩
  | cons name rest ih =>
    intro h h2 gid g hok hg hdef
    simp only [restoreLoop] at hok
    cases hgid : alookup name tg.tunable_groups with
    | none => simp only [hgid] at hok; exact Except.noConfusion hok
    | some gid1 =>
      simp only [hgid] at hok
      cases hg1 : h.get gid1 with
      | none => simp only [hg1] at hok; exact Except.noConfusion hok
      | some g1 =>
        simp only [hg1] at hok
        by_cases heq : gid1 = gid
        · subst heq
          exact ih _ h2 gid1 g1.restore_defaults hok GroupArena.get_set_self
            (restore_defaults_is_defaults g1)
        · exact ih _ h2 gid g hok (by rw [GroupArena.get_set_ne heq]; exact hg) hdef

/-- After a successful restore loop, the group bound to each selected name is
at its defaults. -/
theorem restoreLoop_restores (tg : TunableGroups) :
    ∀ (names : List String) (h h2 : GroupArena),
      restoreLoop tg h names = .ok h2 →
      ∀ name ∈ names, ∀ gid, alookup name tg.tunable_groups = some gid →
        ∃ g2, h2.get gid = some g2 ∧ g2.is_defaults = true := by
  intro names
  induction names with
  | nil => intro h h2 _ name hname; simp at hname
  | cons name0 rest ih =>
    intro h h2 hok name hname gid hgid
    simp only [restoreLoop] at hok
    cases hgid0 : alookup name0 tg.tunable_groups with
    | none => simp only [hgid0] at hok; exact Except.noConfusion hok
    | some gid0 =>
      simp only [hgid0] at hok
      cases hg0 : h.get gid0 with
      | none => simp only [hg0] at hok; exact Except.noConfusion hok
      | some g0 =>
        simp only [hg0] at hok
        rcases List.mem_cons.mp hname with hname | hname
        · subst hname
          have hsame : gid = gid0 := by
            rw [hgid] at hgid0
            exact (Option.some.injEq _ _ ▸ hgid0).symm ▸ rfl
          subst hsame
          exact restoreLoop_preserves_defaults tg rest _ h2 gid g0.restore_defaults hok
            GroupArena.get_set_self (restore_defaults_is_defaults g0)
        · exact ih _ h2 hok name hname gid hgid

/--
C5: `assign({})` with an empty mapping is not a no-op — it restores every
tunable in every group to its default value, so `is_defaults()` holds
immediately afterwards; and `assign` with a non-empty mapping applies each
key/value pair through `__setitem__`.
-/
theorem C5_assign_empty_restores_defaults (h : GroupArena) (tg : TunableGroups)
    (hnd : (akeys tg.tunable_groups).Nodup)
    (hres : resolvesB h tg = true) :
    (∃ h2, tg.assign h [] = .ok h2 ∧ tg.is_defaults h2 = true) ∧
    (∀ pv, pv ≠ [] → tg.assign h pv = setitemFold h tg pv) := by
  constructor
  · have hok : ∃ h2, restoreLoop tg h (akeys tg.tunable_groups) = .ok h2 := by
      apply restoreLoop_ok
      intro name hname
      rcases (@alookup_isSome_iff String GroupId _ name tg.tunable_groups).mpr hname
        |> Option.isSome_iff_exists.mp with ⟨gid, hgid⟩
      refine ⟨gid, hgid, ?_⟩
      simp only [resolvesB, List.all_eq_true] at hres
      exact hres (name, gid) (alookup_mem hgid)
    rcases hok with ⟨h2, hok⟩
    refine ⟨h2, hok, ?_⟩
    simp only [TunableGroups.is_defaults, List.all_eq_true]
    intro p hp
    have hname : p.1 ∈ akeys tg.tunable_groups := List.mem_map.mpr ⟨p, hp, rfl⟩
    have hgid : alookup p.1 tg.tunable_groups = some p.2 :=
      mem_alookup_of_nodup hnd hp
    rcases restoreLoop_restores tg (akeys tg.tunable_groups) h h2 hok p.1 hname p.2 hgid
      with ⟨g2, hg2, hdef⟩
    rw [hg2]
    exact hdef
  · intro pv hpv
    have : pv.isEmpty = false := by
      cases pv with
      | nil => exact absurd rfl hpv
      | cons a l => rfl
    simp [TunableGroups.assign, this]

theorem C5_assign_empty_restores_defaults_witness :
    (∃ h2, rSample.assign arenaSample [] = .ok h2 ∧ rSample.is_defaults h2 = true) ∧
    (∀ pv, pv ≠ [] → rSample.assign arenaSample pv = setitemFold arenaSample rSample pv) :=
  C5_assign_empty_restores_defaults arenaSample rSample (by decide) (by decide)

/-! ## Well-formedness of a TunableGroups view

The structural invariant of `TunableGroups` (spec section 3): unique group
names, unique tunable names, index consistent with group membership, each
group's member names unique, no dangling references.
-/

def WFprop (h : GroupArena) (tg : TunableGroups) : Prop :=
  (akeys tg.tunable_groups).Nodup ∧
  (akeys tg.index).Nodup ∧
  (∀ p ∈ tg.tunable_groups, ∃ g, h.get p.2 = some g ∧ g.name = p.1 ∧
    (∀ t ∈ g.tunables, alookup t.name tg.index = some p.2) ∧
    (g.tunables.map Tunable.name).Nodup) ∧
  (∀ q ∈ tg.index, ∃ p ∈ tg.tunable_groups, p.2 = q.2 ∧
    ∃ g, h.get p.2 = some g ∧ ∃ t ∈ g.tunables, t.name = q.1)

/-- Executable check for `WFprop`. -/
def wfB (h : GroupArena) (tg : TunableGroups) : Bool :=
  decide (akeys tg.tunable_groups).Nodup &&
  decide (akeys tg.index).Nodup &&
  tg.tunable_groups.all (fun p =>
    match h.get p.2 with
    | none => false
    | some g =>
      decide (g.name = p.1) &&
      g.tunables.all (fun t => decide (alookup t.name tg.index = some p.2)) &&
      decide (g.tunables.map Tunable.name).Nodup) &&
  tg.index.all (fun q =>
    tg.tunable_groups.any (fun p =>
      decide (p.2 = q.2) &&
      match h.get p.2 with
      | none => false
      | some g => g.tunables.any (fun t => decide (t.name = q.1))))

theorem wfB_iff {h : GroupArena} {tg : TunableGroups} :
    wfB h tg = true ↔ WFprop h tg := by
  simp only [wfB, WFprop, Bool.and_eq_true, List.all_eq_true, decide_eq_true_eq]
  constructor
  · rintro ⟨⟨⟨h1, h2⟩, h3⟩, h4⟩
    refine ⟨h1, h2, ?_, ?_⟩
    · intro p hp
      have hc := h3 p hp
      cases hg : h.get p.2 with
      | none => rw [hg] at hc; simp at hc
      | some g =>
        rw [hg] at hc
        simp only [Bool.and_eq_true, decide_eq_true_eq, List.all_eq_true,
          decide_eq_true_eq] at hc
        exact ⟨g, rfl, hc.1.1, fun t ht => by
          have := hc.1.2 t ht
          simpa using this, hc.2⟩
    · intro q hq
      have hc := h4 q hq
      simp only [List.any_eq_true, Bool.and_eq_true, decide_eq_true_eq] at hc
      rcases hc with ⟨p, hp, hpq, hrest⟩
      cases hg : h.get p.2 with
      | none => rw [hg] at hrest; simp at hrest
      | some g =>
        rw [hg] at hrest
        simp only [List.any_eq_true, decide_eq_true_eq] at hrest
        rcases hrest with ⟨t, ht, htn⟩
        exact ⟨p, hp, hpq, g, hg, t, ht, htn⟩
  · rintro ⟨h1, h2, h3, h4⟩
    refine ⟨⟨⟨h1, h2⟩, ?_⟩, ?_⟩
    · intro p hp
      rcases h3 p hp with ⟨g, hg, hgn, hidx, hnd⟩
      rw [hg]
      simp only [Bool.and_eq_true, decide_eq_true_eq, List.all_eq_true]
      exact ⟨⟨hgn, fun t ht => by simpa using hidx t ht⟩, hnd⟩
    · intro q hq
      rcases h4 q hq with ⟨p, hp, hpq, g, hg, t, ht, htn⟩
      simp only [List.any_eq_true, Bool.and_eq_true, decide_eq_true_eq]
      refine ⟨p, hp, hpq, ?_⟩
      rw [hg]
      simp only [List.any_eq_true, decide_eq_true_eq]
      exact ⟨t, ht, htn⟩

theorem WF_empty (h : GroupArena) : WFprop h TunableGroups.empty := by
  refine ⟨by simp [TunableGroups.empty, akeys], by simp [TunableGroups.empty, akeys], ?_, ?_⟩
  · intro p hp
    simp [TunableGroups.empty] at hp
  · intro q hq
    simp [TunableGroups.empty] at hq

/-- Well-formedness only reads the arena through successful lookups, so it is
stable under arena extension. -/
theorem WF_mono {h h1 : GroupArena} {tg : TunableGroups}
    (hext : ∀ i g, h.get i = some g → h1.get i = some g)
    (hwf : WFprop h tg) : WFprop h1 tg := by
  rcases hwf with ⟨h1', h2', h3', h4'⟩
  refine ⟨h1', h2', ?_, ?_⟩
  · intro p hp
    rcases h3' p hp with ⟨g, hg, rest⟩
    exact ⟨g, hext _ _ hg, rest⟩
  · intro q hq
    rcases h4' q hq with ⟨p, hp, hpq, g, hg, rest⟩
    exact ⟨p, hp, hpq, g, hext _ _ hg, rest⟩

theorem alookup_append_none_iff {α β : Type} [DecidableEq α] {k : α}
    {l1 l2 : List (α × β)} :
    alookup k (l1 ++ l2) = none ↔ alookup k l1 = none ∧ alookup k l2 = none := by
  cases hl : alookup k l1 with
  | none => simp [alookup_append_none hl, hl]
  | some v =>
    simp only [alookup_append_some hl, hl]
    constructor
    · intro hc; exact Option.noConfusion hc
    · rintro ⟨hc, _⟩; exact Option.noConfusion hc

/-- Success characterization of the tunable-indexing loop, forward direction:
on success no inserted name was already present, the inserted names are
pairwise distinct, and the final index is the old one with the new entries
appended in order. -/
theorem addIdx_ok_props {gid : GroupId} {gname : String} :
    ∀ {ts : List Tunable} {idx idx2 : List (String × GroupId)},
      addTunablesToIndex gid gname ts idx = (none, idx2) →
      (∀ t ∈ ts, alookup t.name idx = none) ∧
      (ts.map Tunable.name).Nodup ∧
      idx2 = idx ++ ts.map (fun t => (t.name, gid)) := by
  intro ts
  induction ts with
  | nil =>
    intro idx idx2 hok
    simp only [addTunablesToIndex, Prod.mk.injEq] at hok
    exact ⟨by simp, by simp, by simp [hok.2.symm]⟩
  | cons t rest ih =>
    intro idx idx2 hok
    simp only [addTunablesToIndex] at hok
    by_cases hdup : (alookup t.name idx).isSome
    · simp [hdup] at hok
    · simp only [hdup, Bool.false_eq_true, if_false] at hok
      rcases ih hok with ⟨hnone, hnd, heq⟩
      have htn : alookup t.name idx = none := by
        cases hx : alookup t.name idx with
        | none => rfl
        | some v => rw [hx] at hdup; simp at hdup
      refine ⟨?_, ?_, ?_⟩
      · intro u hu
        rcases List.mem_cons.mp hu with hu | hu
        · subst hu; exact htn
        · exact (alookup_append_none_iff.mp (hnone u hu)).1
      · simp only [List.map_cons, List.nodup_cons]
        constructor
        · intro hmem
          rcases List.mem_map.mp hmem with ⟨u, hu, hun⟩
          have := hnone u hu
          rcases alookup_append_none_iff.mp this with ⟨_, hr⟩
          simp [alookup, hun] at hr
        · exact hnd
      · rw [heq]
        simp

/-- Success characterization, backward direction: fresh and pairwise-distinct
names make the indexing loop succeed with the entries appended. -/
theorem addIdx_ok_of {gid : GroupId} {gname : String} :
    ∀ {ts : List Tunable} {idx : List (String × GroupId)},
      (∀ t ∈ ts, alookup t.name idx = none) →
      (ts.map Tunable.name).Nodup →
      addTunablesToIndex gid gname ts idx =
        (none, idx ++ ts.map (fun t => (t.name, gid))) := by
  intro ts
  induction ts with
  | nil => intro idx _ _; simp [addTunablesToIndex]
  | cons t rest ih =>
    intro idx hfresh hnd
    have htn : alookup t.name idx = none := hfresh t (List.mem_cons_self _ _)
    simp only [List.map_cons, List.nodup_cons] at hnd
    have hstep := @ih (idx ++ [(t.name, gid)]) (fun u hu => by
      apply alookup_append_none_iff.mpr
      refine ⟨hfresh u (List.mem_cons_of_mem _ hu), ?_⟩
      have hne : t.name ≠ u.name := by
        intro he
        exact hnd.1 (he ▸ List.mem_map.mpr ⟨u, hu, rfl⟩)
      simp [alookup, fun hc => hne hc]) hnd.2
    simp only [addTunablesToIndex, htn, Option.isSome_none, Bool.false_eq_true, if_false]
    rw [hstep]
    simp

/-- Success characterization of `_add_group`, forward direction. -/
theorem _add_group_ok_props {tg tg2 : TunableGroups} {gid : GroupId}
    {g : CovariantTunableGroup}
    (hok : tg._add_group gid g = (none, tg2)) :
    alookup g.name tg.tunable_groups = none ∧
    (∀ t ∈ g.tunables, alookup t.name tg.index = none) ∧
    (g.tunables.map Tunable.name).Nodup ∧
    tg2 = { tunable_groups := tg.tunable_groups ++ [(g.name, gid)]
            index := tg.index ++ g.tunables.map (fun t => (t.name, gid)) } := by
  by_cases hdup : (alookup g.name tg.tunable_groups).isSome
  · simp [TunableGroups._add_group, hdup] at hok
  · have hnone : alookup g.name tg.tunable_groups = none := by
      cases hx : alookup g.name tg.tunable_groups with
      | none => rfl
      | some v => rw [hx] at hdup; simp at hdup
    simp only [TunableGroups._add_group, hdup, Bool.false_eq_true, if_false] at hok
    rcases hr : addTunablesToIndex gid g.name g.tunables tg.index with ⟨e1, idx2⟩
    rw [hr] at hok
    simp only [Prod.mk.injEq] at hok
    rcases hok with ⟨he1, htg2⟩
    subst he1
    rcases addIdx_ok_props hr with ⟨hfresh, hnd, heq⟩
    subst heq
    exact ⟨hnone, hfresh, hnd, by rw [← htg2]⟩

/-- Success characterization of `_add_group`, backward direction. -/
theorem _add_group_ok_of {tg : TunableGroups} {gid : GroupId} {g : CovariantTunableGroup}
    (hname : alookup g.name tg.tunable_groups = none)
    (hfresh : ∀ t ∈ g.tunables, alookup t.name tg.index = none)
    (hnd : (g.tunables.map Tunable.name).Nodup) :
    tg._add_group gid g =
      (none, { tunable_groups := tg.tunable_groups ++ [(g.name, gid)]
               index := tg.index ++ g.tunables.map (fun t => (t.name, gid)) }) := by
  have hdup : (alookup g.name tg.tunable_groups).isSome = false := by
    simp [hname]
  simp only [TunableGroups._add_group, hdup, Bool.false_eq_true, if_false]
  rw [addIdx_ok_of hfresh hnd]

theorem alookup_const_entries {gid : GroupId} :
    ∀ {ts : List Tunable} {t : Tunable}, t ∈ ts →
      alookup t.name (ts.map (fun u => (u.name, gid))) = some gid := by
  intro ts
  induction ts with
  | nil => intro t ht; simp at ht
  | cons u rest ih =>
    intro t ht
    simp only [List.map_cons, alookup]
    by_cases hn : u.name = t.name
    · simp [hn]
    · simp only [hn, if_false]
      rcases List.mem_cons.mp ht with ht | ht
      · subst ht; exact absurd rfl hn
      · exact ih ht

/-- `_add_group` preserves well-formedness on success, provided the added
group is the arena object at the given id. -/
theorem WF_add_group {h : GroupArena} {tg tg2 : TunableGroups} {gid : GroupId}
    {g : CovariantTunableGroup} (hwf : WFprop h tg) (hg : h.get gid = some g)
    (hadd : tg._add_group gid g = (none, tg2)) : WFprop h tg2 := by
  rcases _add_group_ok_props hadd with ⟨hname, hfresh, hnd, htg2⟩
  subst htg2
  rcases hwf with ⟨hc1, hc2, hc3, hc4⟩
  refine ⟨?_, ?_, ?_, ?_⟩
  · rw [akeys_append]
    rw [List.nodup_append]
    refine ⟨hc1, by simp [akeys], ?_⟩
    intro a ha hb
    simp only [akeys, List.map_cons, List.map_nil, List.mem_singleton] at hb
    subst hb
    exact (alookup_eq_none_iff.mp hname) ha
  · rw [akeys_append]
    rw [List.nodup_append]
    have hkeys : akeys (g.tunables.map (fun t => (t.name, gid))) =
        g.tunables.map Tunable.name := by
      simp [akeys, List.map_map, Function.comp]
    refine ⟨hc2, by rw [hkeys]; exact hnd, ?_⟩
    intro a ha hb
    rw [hkeys] at hb
    rcases List.mem_map.mp hb with ⟨t, ht, htn⟩
    subst htn
    exact (alookup_eq_none_iff.mp (hfresh t ht)) ha
  · intro p hp
    rcases List.mem_append.mp hp with hp | hp
    · rcases hc3 p hp with ⟨g1, hg1, hgn1, hidx1, hnd1⟩
      exact ⟨g1, hg1, hgn1, fun t ht => alookup_append_some (hidx1 t ht), hnd1⟩
    · simp only [List.mem_singleton] at hp
      subst hp
      refine ⟨g, hg, rfl, ?_, hnd⟩
      intro t ht
      rw [alookup_append_none (hfresh t ht)]
      exact alookup_const_entries ht
  · intro q hq
    rcases List.mem_append.mp hq with hq | hq
    · rcases hc4 q hq with ⟨p, hp, hpq, g1, hg1, t, ht, htn⟩
      exact ⟨p, List.mem_append_left _ hp, hpq, g1, hg1, t, ht, htn⟩
    · rcases List.mem_map.mp hq with ⟨t, ht, htq⟩
      refine ⟨(g.name, gid), List.mem_append_right _ (List.mem_singleton.mpr rfl),
        ?_, g, hg, t, ht, ?_⟩
      · rw [← htq]
      · rw [← htq]

/-- Construction preserves well-formedness: a successfully built
`TunableGroups` is well-formed in the final arena. -/
theorem initLoop_WF :
    ∀ (cfgs : List (String × GroupCfg)) (h : GroupArena) (tg : TunableGroups)
      (tg2 : TunableGroups) (h2 : GroupArena),
      arenaWF h = true → WFprop h tg →
      initLoop h tg cfgs = (none, tg2, h2) →
      WFprop h2 tg2 ∧ arenaWF h2 = true := by
  intro cfgs
  induction cfgs with
  | nil =>
    intro h tg tg2 h2 haw hwf hok
    simp only [initLoop, Prod.mk.injEq] at hok
    rcases hok with ⟨_, htg, hh⟩
    subst htg hh
    exact ⟨hwf, haw⟩
  | cons c rest ih =>
    intro h tg tg2 h2 haw hwf hok
    rcases c with ⟨name, gc⟩
    simp only [initLoop] at hok
    rcases halloc : h.alloc (mkGroup name gc) with ⟨gid, h1⟩
    rw [halloc] at hok
    rcases hadd : tg._add_group gid (mkGroup name gc) with ⟨e, tg1⟩
    rw [hadd] at hok
    cases e with
    | some err => simp at hok
    | none =>
      simp only at hok
      have haw1 : arenaWF h1 = true := arenaWF_alloc haw halloc
      have hget : h1.get gid = some (mkGroup name gc) :=
        GroupArena.get_alloc_fresh haw halloc
      have hwf1 : WFprop h1 tg :=
        WF_mono (fun i g0 hi => GroupArena.get_alloc_preserve halloc hi) hwf
      have hwf2 : WFprop h1 tg1 := WF_add_group hwf1 hget hadd
      exact ih h1 tg1 tg2 h2 haw1 hwf2 hok

/-- Merging preserves well-formedness of the receiver on success. -/
theorem mergeLoop_WF {h : GroupArena} :
    ∀ (olist : List (String × GroupId)) (r r2 : TunableGroups),
      WFprop h r → mergeLoop h r olist = (none, r2) → WFprop h r2 := by
  intro olist
  induction olist with
  | nil =>
    intro r r2 hwf hok
    simp only [mergeLoop, Prod.mk.injEq] at hok
    rw [← hok.2]
    exact hwf
  | cons p rest ih =>
    intro r r2 hwf hok
    rcases p with ⟨n1, gid⟩
    cases hg : h.get gid with
    | none => simp [mergeLoop, hg] at hok
    | some g =>
      cases hlook : alookup g.name r.tunable_groups with
      | none =>
        rcases hadd : r._add_group gid g with ⟨e, r1⟩
        cases e with
        | some err => simp [mergeLoop, hg, hlook, hadd] at hok
        | none =>
          simp only [mergeLoop, hg, hlook, hadd] at hok
          exact ih r1 r2 (WF_add_group hwf hg hadd) hok
      | some rgid =>
        cases hrg : h.get rgid with
        | none => simp [mergeLoop, hg, hlook, hrg] at hok
        | some rg =>
          cases heq : rg.equals_defaults g with
          | false => simp [mergeLoop, hg, hlook, hrg, heq] at hok
          | true =>
            simp only [mergeLoop, hg, hlook, hrg, heq, if_true] at hok
            exact ih r r2 hwf hok

/-- Subgroup extraction preserves well-formedness, and every group of the
result is the *same* arena object bound to the same name in the source. -/
theorem subgroupLoop_ok_inv {h : GroupArena} {src : TunableGroups}
    (hwfs : WFprop h src) :
    ∀ (names : List String) (acc sub : TunableGroups),
      WFprop h acc →
      (∀ p ∈ acc.tunable_groups, alookup p.1 src.tunable_groups = some p.2) →
      subgroupLoop h src acc names = .ok sub →
      WFprop h sub ∧
      (∀ p ∈ sub.tunable_groups, alookup p.1 src.tunable_groups = some p.2) := by
  intro names
  induction names with
  | nil =>
    intro acc sub hwf hmap hok
    simp only [subgroupLoop, Except.ok.injEq] at hok
    subst hok
    exact ⟨hwf, hmap⟩
  | cons name rest ih =>
    intro acc sub hwf hmap hok
    simp only [subgroupLoop] at hok
    cases hlook : alookup name src.tunable_groups with
    | none => simp only [hlook] at hok; exact Except.noConfusion hok
    | some gid =>
      simp only [hlook] at hok
      cases hg : h.get gid with
      | none => simp only [hg] at hok; exact Except.noConfusion hok
      | some g =>
        simp only [hg] at hok
        rcases hadd : acc._add_group gid g with ⟨e, acc1⟩
        rw [hadd] at hok
        cases e with
        | some err => simp at hok
        | none =>
          simp only at hok
          have hgname : g.name = name := by
            rcases hwfs.2.2.1 (name, gid) (alookup_mem hlook) with ⟨g1, hg1, hgn1, _⟩
            rw [hg] at hg1
            cases hg1
            exact hgn1
          have hmap1 : ∀ p ∈ acc1.tunable_groups,
              alookup p.1 src.tunable_groups = some p.2 := by
            rcases _add_group_ok_props hadd with ⟨_, _, _, hacc1⟩
            subst hacc1
            intro p hp
            rcases List.mem_append.mp hp with hp | hp
            · exact hmap p hp
            · simp only [List.mem_singleton] at hp
              subst hp
              simpa [hgname] using hlook
          exact ih acc1 sub (WF_add_group hwf hg hadd) hmap1 hok

/-! ## C4 — index/group bijection after every structural operation -/

/-- `p` is a group entry of the view owning the tunable named `tname`. -/
def ownsTunable (h : GroupArena) (tg : TunableGroups) (p : String × GroupId)
    (tname : String) : Prop :=
  p ∈ tg.tunable_groups ∧ ∃ g, h.get p.2 = some g ∧ tname ∈ g.tunables.map Tunable.name

/-- Every tunable name is owned by exactly one group entry, the index maps it
to that entry's group, and every index entry comes from an owning group. -/
def IndexGroupBijection (h : GroupArena) (tg : TunableGroups) : Prop :=
  (∀ tname p, ownsTunable h tg p tname →
    (∀ q, ownsTunable h tg q tname → q = p) ∧ alookup tname tg.index = some p.2) ∧
  (∀ q ∈ tg.index, ∃ p, ownsTunable h tg p q.1 ∧ p.2 = q.2)

theorem WF_bijection {h : GroupArena} {tg : TunableGroups} (hwf : WFprop h tg) :
    IndexGroupBijection h tg := by
  rcases hwf with ⟨hc1, hc2, hc3, hc4⟩
  have hlookup : ∀ tname p, ownsTunable h tg p tname →
      alookup tname tg.index = some p.2 := by
    intro tname p hp
    rcases hp with ⟨hp, g, hg, htn⟩
    rcases hc3 p hp with ⟨g1, hg1, _, hidx1, _⟩
    rw [hg] at hg1
    cases hg1
    rcases List.mem_map.mp htn with ⟨t, ht, htn⟩
    subst htn
    exact hidx1 t ht
  constructor
  · intro tname p hp
    refine ⟨?_, hlookup tname p hp⟩
    intro q hq
    have hpq : p.2 = q.2 := by
      have h1 := hlookup tname p hp
      have h2 := hlookup tname q hq
      rw [h1] at h2
      exact (Option.some.injEq _ _ ▸ h2.symm) ▸ rfl
    have hpn : p.1 = q.1 := by
      rcases hc3 p hp.1 with ⟨g1, hg1, hn1, _, _⟩
      rcases hc3 q hq.1 with ⟨g2, hg2, hn2, _, _⟩
      rw [hpq] at hg1
      rw [hg1] at hg2
      cases hg2
      rw [← hn1, ← hn2]
    rcases p with ⟨pn, pg⟩
    rcases q with ⟨qn, qg⟩
    simp only at hpq hpn
    rw [hpq, hpn]
  · intro q hq
    rcases hc4 q hq with ⟨p, hp, hpq, g, hg, t, ht, htn⟩
    exact ⟨p, ⟨hp, g, hg, List.mem_map.mpr ⟨t, ht, htn⟩⟩, hpq⟩

/--
C4: after every successful structural operation — construction from a config,
`merge`, and `subgroup` — each tunable name is owned by exactly one covariant
group of the view and the name index maps it to that owning group (a
duplicate tunable name across groups makes the operation raise instead).
-/
theorem C4_index_group_bijection :
    (∀ (cfgs : List (String × GroupCfg)) (h h2 : GroupArena) (tg2 : TunableGroups),
      arenaWF h = true → TunableGroups.init h cfgs = (none, tg2, h2) →
      IndexGroupBijection h2 tg2) ∧
    (∀ (h : GroupArena) (r o r2 : TunableGroups), wfB h r = true →
      r.merge h o = (none, r2) → IndexGroupBijection h r2) ∧
    (∀ (h : GroupArena) (tg sub : TunableGroups) (names : List String),
      wfB h tg = true → tg.subgroup h names = .ok sub →
      IndexGroupBijection h sub) := by
  refine ⟨?_, ?_, ?_⟩
  · intro cfgs h h2 tg2 haw hok
    exact WF_bijection (initLoop_WF cfgs h TunableGroups.empty tg2 h2 haw (WF_empty h) hok).1
  · intro h r o r2 hwf hok
    exact WF_bijection (mergeLoop_WF o.tunable_groups r r2 (wfB_iff.mp hwf) hok)
  · intro h tg sub names hwf hok
    exact WF_bijection
      (subgroupLoop_ok_inv (wfB_iff.mp hwf) names TunableGroups.empty sub (WF_empty h)
        (fun p hp => by simp [TunableGroups.empty] at hp) hok).1

def gcSample : GroupCfg :=
  { cost := 1
    params := [("x", { domain := .categorical ["a", "b"], default := .s "a" })] }

def cfgSample : List (String × GroupCfg) := [("g1", gcSample)]

def tgInitSample : TunableGroups := { tunable_groups := [("g1", 0)], index := [("x", 0)] }

def arenaInitSample : GroupArena :=
  { groups := [(0, mkGroup "g1" gcSample)], next := 1 }

theorem C4_index_group_bijection_witness :
    IndexGroupBijection arenaInitSample tgInitSample :=
  C4_index_group_bijection.1 cfgSample emptyArena arenaInitSample tgInitSample
    (by decide) (by decide)

/-! ## C6 — subgroup aliases the source's group objects -/

theorem find_map_set {n : String} {v : TunableValue} {l : List Tunable} {t : Tunable}
    (ht : l.find? (fun u => u.name == n) = some t) :
    (l.map (fun u => if u.name = n then { u with value := v } else u)).find?
      (fun u => u.name == n) = some { t with value := v } := by
  have hpred : ((fun u : Tunable => u.name == n) ∘
      (fun u => if u.name = n then { u with value := v } else u)) =
      (fun u : Tunable => u.name == n) := by
    funext u
    by_cases hn : u.name = n
    · simp [hn]
    · simp [hn]
  rw [List.find?_map]
  rw [hpred, ht]
  have htn : t.name = n := by
    have := List.find?_some ht
    simpa using this
  simp [htn]

/-- A successful group item-assignment leaves the named member holding the
assigned value. -/
theorem setValue_get {g g1 : CovariantTunableGroup} {n : String} {v : TunableValue}
    (hset : g.setValue n v = .ok g1) :
    ∃ t1, g1.get_tunable n = some t1 ∧ t1.value = v := by
  unfold CovariantTunableGroup.setValue at hset
  cases hget : g.get_tunable n with
  | none => simp only [hget] at hset; exact Except.noConfusion hset
  | some t =>
    simp only [hget] at hset
    by_cases hall : t.domain.allows v = true
    · simp only [hall, if_true, Except.ok.injEq] at hset
      subst hset
      refine ⟨{ t with value := v }, ?_, rfl⟩
      show (g.tunables.map (fun u => if u.name = n then { u with value := v } else u)).find?
        (fun u => u.name == n) = some { t with value := v }
      exact find_map_set hget
    · simp only [hall, Bool.false_eq_true, if_false] at hset
      exact Except.noConfusion hset

/-- Every index entry of a subgroup view is also an index entry of the source
(same tunable name, same arena id). -/
theorem sub_index_lookup {h : GroupArena} {src sub : TunableGroups}
    (hwfs : WFprop h src) (hwfsub : WFprop h sub)
    (hmapsub : ∀ p ∈ sub.tunable_groups, alookup p.1 src.tunable_groups = some p.2) :
    ∀ q ∈ sub.index, alookup q.1 src.index = some q.2 := by
  intro q hq
  rcases hwfsub.2.2.2 q hq with ⟨p, hp, hpq, g, hg, t, ht, htn⟩
  have hsrc := hmapsub p hp
  rcases hwfs.2.2.1 (p.1, p.2) (alookup_mem hsrc) with ⟨g1, hg1, hgn1, hidx1, _⟩
  simp only at hg1
  rw [hg] at hg1
  cases hg1
  have e1 := hidx1 t ht
  simp only at e1
  rw [htn, hpq] at e1
  exact e1

/-- When some requested name is not a group of the source, the subgroup loop
fails with a `KeyError` naming an unknown group. -/
theorem subgroupLoop_unknown_name {h : GroupArena} {src : TunableGroups}
    (hwfs : WFprop h src) :
    ∀ (names : List String) (acc : TunableGroups),
      names.Nodup →
      WFprop h acc →
      (∀ p ∈ acc.tunable_groups, alookup p.1 src.tunable_groups = some p.2) →
      (∀ p ∈ acc.tunable_groups, p.1 ∉ names) →
      (∃ b ∈ names, alookup b src.tunable_groups = none) →
      ∃ b, subgroupLoop h src acc names = .error (.keyError b) ∧
        alookup b src.tunable_groups = none := by
  intro names
  induction names with
  | nil =>
    intro acc _ _ _ _ hbad
    rcases hbad with ⟨b, hb, _⟩
    simp at hb
  | cons name rest ih =>
    intro acc hnd hwf hmap hdisj hbad
    cases hlook : alookup name src.tunable_groups with
    | none => exact ⟨name, by simp [subgroupLoop, hlook], hlook⟩
    | some gid =>
      have hbad2 : ∃ b ∈ rest, alookup b src.tunable_groups = none := by
        rcases hbad with ⟨b, hb, hbn⟩
        rcases List.mem_cons.mp hb with hb | hb
        · subst hb
          rw [hlook] at hbn
          exact Option.noConfusion hbn
        · exact ⟨b, hb, hbn⟩
      rcases hwfs.2.2.1 (name, gid) (alookup_mem hlook) with ⟨g, hg, hgn, hgidx, hgnd⟩
      simp only at hg hgn hgidx
      have hname_none : alookup g.name acc.tunable_groups = none := by
        cases hx : alookup g.name acc.tunable_groups with
        | none => rfl
        | some gid2 =>
          exfalso
          have hmemx := alookup_mem hx
          have hd := hdisj (g.name, gid2) hmemx
          rw [hgn] at hd
          exact hd (List.mem_cons_self _ _)
      have hfresh : ∀ t ∈ g.tunables, alookup t.name acc.index = none := by
        intro t ht
        cases hx : alookup t.name acc.index with
        | none => rfl
        | some gid2 =>
          exfalso
          have hqmem := alookup_mem hx
          rcases hwf.2.2.2 (t.name, gid2) hqmem with ⟨p, hp, hpq, g2, hg2, t2, ht2, ht2n⟩
          simp only at hpq hg2 ht2n
          have hsrcp := hmap p hp
          rcases hwfs.2.2.1 (p.1, p.2) (alookup_mem hsrcp) with ⟨g2x, hg2x, hg2n, hidx2, _⟩
          simp only at hg2x hg2n hidx2
          rw [hg2] at hg2x
          cases hg2x
          have e1 := hidx2 t2 ht2
          have e2 := hgidx t ht
          rw [ht2n] at e1
          rw [e1] at e2
          have hpgid : p.2 = gid := by
            have := Option.some.injEq p.2 gid ▸ e2
            simpa using e2
          rw [hpgid] at hg2
          rw [hg] at hg2
          cases hg2
          have hpn : p.1 = name := by rw [← hg2n, hgn]
          have hd := hdisj p hp
          rw [hpn] at hd
          exact hd (List.mem_cons_self _ _)
      have haddeq := @_add_group_ok_of acc gid g hname_none hfresh hgnd
      have hstep : subgroupLoop h src acc (name :: rest) =
          subgroupLoop h src
            { tunable_groups := acc.tunable_groups ++ [(g.name, gid)]
              index := acc.index ++ g.tunables.map (fun t => (t.name, gid)) } rest := by
        simp [subgroupLoop, hlook, hg, haddeq]
      set acc2 : TunableGroups :=
        { tunable_groups := acc.tunable_groups ++ [(g.name, gid)]
          index := acc.index ++ g.tunables.map (fun t => (t.name, gid)) } with hacc2
      have hwf2 : WFprop h acc2 := WF_add_group hwf hg haddeq
      have hmap2 : ∀ p ∈ acc2.tunable_groups, alookup p.1 src.tunable_groups = some p.2 := by
        intro p hp
        rcases List.mem_append.mp hp with hp | hp
        · exact hmap p hp
        · simp only [List.mem_singleton] at hp
          subst hp
          simpa [hgn] using hlook
      have hdisj2 : ∀ p ∈ acc2.tunable_groups, p.1 ∉ rest := by
        intro p hp
        rcases List.mem_append.mp hp with hp | hp
        · intro hmem
          exact hdisj p hp (List.mem_cons_of_mem _ hmem)
        · simp only [List.mem_singleton] at hp
          subst hp
          simp only [hgn]
          simp only [List.nodup_cons] at hnd
          exact hnd.1
      have hnd2 : rest.Nodup := by
        simp only [List.nodup_cons] at hnd
        exact hnd.2
      rcases ih acc2 hnd2 hwf2 hmap2 hdisj2 hbad2 with ⟨b, hb1, hb2⟩
      exact ⟨b, by rw [hstep]; exact hb1, hb2⟩

/--
C6: `subgroup(names)` returns a view holding the *same* group objects (same
arena ids, bound to the same names) as the source, so a value set through the
subgroup is read back through the original for that same tunable; and when a
requested name is not a group of the source, `subgroup` fails with a
`KeyError` naming an unknown group.
-/
theorem C6_subgroup_aliasing (h : GroupArena) (src : TunableGroups)
    (names : List String) (hwf : wfB h src = true) :
    (∀ sub tname v h2, src.subgroup h names = .ok sub →
      sub.setitem h tname v = .ok h2 →
      src.getitem h2 tname = .ok v ∧
      (∀ p ∈ sub.tunable_groups, alookup p.1 src.tunable_groups = some p.2)) ∧
    (names.Nodup → (∃ b ∈ names, alookup b src.tunable_groups = none) →
      ∃ b, src.subgroup h names = .error (.keyError b) ∧
        alookup b src.tunable_groups = none) := by
  have hwfs := wfB_iff.mp hwf
  constructor
  · intro sub tname v h2 hsub hset
    have hinv := subgroupLoop_ok_inv hwfs names TunableGroups.empty sub (WF_empty h)
      (fun p hp => by simp [TunableGroups.empty] at hp) hsub
    refine ⟨?_, hinv.2⟩
    unfold TunableGroups.setitem at hset
    cases hq : alookup tname sub.index with
    | none => simp only [hq] at hset; exact Except.noConfusion hset
    | some gid =>
      simp only [hq] at hset
      cases hg : h.get gid with
      | none => simp only [hg] at hset; exact Except.noConfusion hset
      | some g =>
        simp only [hg] at hset
        cases hsv : g.setValue tname v with
        | error e => simp only [hsv] at hset; exact Except.noConfusion hset
        | ok g1 =>
          simp only [hsv, Except.ok.injEq] at hset
          have hsrcidx : alookup tname src.index = some gid :=
            sub_index_lookup hwfs hinv.1 hinv.2 (tname, gid) (alookup_mem hq)
          rcases setValue_get hsv with ⟨t1, ht1, ht1v⟩
          rw [← hset]
          simp only [TunableGroups.getitem, hsrcidx, GroupArena.get_set_self, ht1, ht1v]
  · intro hnd hbad
    exact subgroupLoop_unknown_name hwfs names TunableGroups.empty hnd (WF_empty h)
      (fun p hp => by simp [TunableGroups.empty] at hp)
      (fun p hp => by simp [TunableGroups.empty] at hp) hbad

def subSample : TunableGroups := { tunable_groups := [("g1", 0)], index := [("x", 0)] }

def rgSampleAfterSet : CovariantTunableGroup :=
  { name := "g1", cost := 1
    tunables := [{ name := "x", domain := .categorical ["a", "b"],
                   default := .s "a", value := .s "a" }]
    is_updated := true }

def arenaSampleAfterSet : GroupArena :=
  { groups := [(0, rgSampleAfterSet), (1, ogSample)], next := 2 }

theorem C6_subgroup_aliasing_witness :
    rSample.getitem arenaSampleAfterSet "x" = .ok (.s "a") ∧
    (∀ p ∈ subSample.tunable_groups, alookup p.1 rSample.tunable_groups = some p.2) :=
  (C6_subgroup_aliasing arenaSample rSample ["g1"] (by decide)).1 subSample "x"
    (.s "a") arenaSampleAfterSet rfl rfl

/-! ## C7 — copy is ==-equal and fully detached -/

/-- The allocation pass of `copy.deepcopy`: walk the group entries, allocate a
fresh arena cell per distinct group object, and record the id renaming (the
deepcopy memo, so a group shared within the object is copied once). -/
def copyAllocLoop (h : GroupArena) : GroupArena → List (GroupId × GroupId) →
    List (String × GroupId) → List (GroupId × GroupId) × GroupArena
  | hc, ren, [] => (ren, hc)
  | hc, ren, p :: rest =>
    if (alookup p.2 ren).isSome then copyAllocLoop h hc ren rest
    else
      match h.get p.2 with
      | none => copyAllocLoop h hc ren rest
      | some g =>
        let r := hc.alloc g
        copyAllocLoop h r.2 (ren ++ [(p.2, r.1)]) rest

/-- `TunableGroups.copy` (source lines 157–167): a deep copy — fresh group
objects for the whole object graph, with the internal sharing between the
group map and the index preserved through the renaming. -/
def TunableGroups.copy (h : GroupArena) (tg : TunableGroups) :
    TunableGroups × GroupArena :=
  let r := copyAllocLoop h h [] tg.tunable_groups
  ({ tunable_groups := tg.tunable_groups.map (fun p => (p.1, (alookup p.2 r.1).getD p.2))
     index := tg.index.map (fun q => (q.1, (alookup q.2 r.1).getD q.2)) }, r.2)

/-- `TunableGroups.__eq__` (source lines 139–155): dict equality of the group
maps — same group names, and structurally equal groups (names, domains,
defaults, current values and dirty flags; the group equality modelled from the
spec as full structural equality). -/
def tgEq (h1 : GroupArena) (tg1 : TunableGroups) (h2 : GroupArena)
    (tg2 : TunableGroups) : Bool :=
  tg1.tunable_groups.all (fun p =>
    match alookup p.1 tg2.tunable_groups with
    | none => false
    | some gid2 =>
      match h1.get p.2, h2.get gid2 with
      | some g1, some g2 => decide (g1 = g2)
      | _, _ => false) &&
  tg2.tunable_groups.all (fun p => (alookup p.1 tg1.tunable_groups).isSome)

theorem copyAllocLoop_spec (h : GroupArena) :
    ∀ (entries : List (String × GroupId)) (hc : GroupArena)
      (ren : List (GroupId × GroupId)),
      arenaWF hc = true →
      h.next ≤ hc.next →
      (∀ pr ∈ ren, h.next ≤ pr.2 ∧ ∃ g, h.get pr.1 = some g ∧ hc.get pr.2 = some g) →
      arenaWF (copyAllocLoop h hc ren entries).2 = true ∧
      (∀ pr ∈ (copyAllocLoop h hc ren entries).1, h.next ≤ pr.2 ∧
        ∃ g, h.get pr.1 = some g ∧ (copyAllocLoop h hc ren entries).2.get pr.2 = some g) ∧
      (∀ p ∈ entries, (h.get p.2).isSome →
        (alookup p.2 (copyAllocLoop h hc ren entries).1).isSome) ∧
      (∀ k v, alookup k ren = some v →
        alookup k (copyAllocLoop h hc ren entries).1 = some v) ∧
      (∀ i g0, hc.get i = some g0 → (copyAllocLoop h hc ren entries).2.get i = some g0) := by
  intro entries
  induction entries with
  | nil =>
    intro hc ren hcwf hle hren
    simp only [copyAllocLoop]
    exact ⟨hcwf, hren, fun p hp => by simp at hp, fun k v hk => hk, fun i g0 hi => hi⟩
  | cons p rest ih =>
    intro hc ren hcwf hle hren
    by_cases hdup : (alookup p.2 ren).isSome
    · simp only [copyAllocLoop, hdup, if_true]
      rcases ih hc ren hcwf hle hren with ⟨c1, c2, c3, c4, c5⟩
      refine ⟨c1, c2, ?_, c4, c5⟩
      intro q hq hqs
      rcases List.mem_cons.mp hq with hq | hq
      · subst hq
        rcases Option.isSome_iff_exists.mp hdup with ⟨v, hv⟩
        rw [c4 _ _ hv]
        rfl
      · exact c3 q hq hqs
    · cases hg : h.get p.2 with
      | none =>
        simp only [copyAllocLoop, hdup, Bool.false_eq_true, if_false, hg]
        rcases ih hc ren hcwf hle hren with ⟨c1, c2, c3, c4, c5⟩
        refine ⟨c1, c2, ?_, c4, c5⟩
        intro q hq hqs
        rcases List.mem_cons.mp hq with hq | hq
        · subst hq
          rw [hg] at hqs
          simp at hqs
        · exact c3 q hq hqs
      | some g =>
        rcases halloc : hc.alloc g with ⟨nid, hc1⟩
        simp only [copyAllocLoop, hdup, Bool.false_eq_true, if_false, hg, halloc]
        have hcwf1 := arenaWF_alloc hcwf halloc
        have hnid : nid = hc.next := by
          simpa [GroupArena.alloc] using (congrArg Prod.fst halloc).symm
        have hnext1 : hc1.next = hc.next + 1 := by
          have hh : hc1 = { groups := hc.groups ++ [(hc.next, g)], next := hc.next + 1 } := by
            simpa [GroupArena.alloc] using (congrArg Prod.snd halloc).symm
          rw [hh]
        have hle1 : h.next ≤ hc1.next := by
          rw [hnext1]
          exact Nat.le_succ_of_le hle
        have hren1 : ∀ pr ∈ ren ++ [(p.2, nid)], h.next ≤ pr.2 ∧
            ∃ g0, h.get pr.1 = some g0 ∧ hc1.get pr.2 = some g0 := by
          intro pr hpr
          rcases List.mem_append.mp hpr with hpr | hpr
          · rcases hren pr hpr with ⟨hb, g0, hg0, hget0⟩
            exact ⟨hb, g0, hg0, GroupArena.get_alloc_preserve halloc hget0⟩
          · simp only [List.mem_singleton] at hpr
            subst hpr
            refine ⟨?_, g, hg, GroupArena.get_alloc_fresh hcwf halloc⟩
            simp only [hnid]
            exact hle
        rcases ih hc1 (ren ++ [(p.2, nid)]) hcwf1 hle1 hren1 with ⟨c1, c2, c3, c4, c5⟩
        refine ⟨c1, c2, ?_, ?_, ?_⟩
        · intro q hq hqs
          rcases List.mem_cons.mp hq with hq | hq
          · subst hq
            have hnone : alookup q.2 ren = none := by
              cases hx : alookup q.2 ren with
              | none => rfl
              | some v => rw [hx] at hdup; simp at hdup
            have hsing : alookup q.2 (ren ++ [(q.2, nid)]) = some nid := by
              rw [alookup_append_none hnone]
              simp [alookup]
            rw [c4 _ _ hsing]
            rfl
          · exact c3 q hq hqs
        · intro k v hk
          exact c4 k v (alookup_append_some hk)
        · intro i g0 hi
          exact c5 i g0 (GroupArena.get_alloc_preserve halloc hi)

/--
C7: `copy()` returns a `TunableGroups` that is `==`-equal to the source (same
group names, and groups equal in names, domains, defaults, current values and
dirty flags) yet fully detached: its group ids are disjoint from the
source's, and a `__setitem__` mutation through the copy leaves every group
cell of the source untouched, and vice versa.
-/
theorem C7_copy_equal_detached (h : GroupArena) (tg : TunableGroups)
    (hwf : wfB h tg = true) (haw : arenaWF h = true) :
    tgEq (tg.copy h).2 tg (tg.copy h).2 (tg.copy h).1 = true ∧
    (∀ p ∈ (tg.copy h).1.tunable_groups, ∀ q ∈ tg.tunable_groups, p.2 ≠ q.2) ∧
    (∀ tname v h2, (tg.copy h).1.setitem (tg.copy h).2 tname v = .ok h2 →
      ∀ q ∈ tg.tunable_groups, h2.get q.2 = (tg.copy h).2.get q.2) ∧
    (∀ tname v h2, tg.setitem (tg.copy h).2 tname v = .ok h2 →
      ∀ q ∈ (tg.copy h).1.tunable_groups, h2.get q.2 = (tg.copy h).2.get q.2) := by
  obtain ⟨hc1, hc2, hc3, hc4⟩ := wfB_iff.mp hwf
  obtain ⟨sWF, sRen, sCov, sPres, sExt⟩ :=
    copyAllocLoop_spec h tg.tunable_groups h [] haw (Nat.le_refl _)
      (fun pr hpr => by simp at hpr)
  have hmapF : ∀ p ∈ tg.tunable_groups, ∃ g nid, h.get p.2 = some g ∧
      alookup p.2 (copyAllocLoop h h [] tg.tunable_groups).1 = some nid ∧
      h.next ≤ nid ∧
      (copyAllocLoop h h [] tg.tunable_groups).2.get nid = some g ∧
      (copyAllocLoop h h [] tg.tunable_groups).2.get p.2 = some g := by
    intro p hp
    rcases hc3 p hp with ⟨g, hg, _⟩
    have hcov := sCov p hp (by simp [hg])
    rcases Option.isSome_iff_exists.mp hcov with ⟨nid, hnid⟩
    rcases sRen (p.2, nid) (alookup_mem hnid) with ⟨hle, g2, hg2, hget2⟩
    rw [hg] at hg2
    cases hg2
    exact ⟨g, nid, hg, hnid, hle, hget2, sExt p.2 g hg⟩
  have hsrc_small : ∀ q ∈ tg.tunable_groups, q.2 < h.next := by
    intro q hq
    rcases hc3 q hq with ⟨g, hg, _⟩
    exact arenaWF_bound haw hg
  have hcopy_big : ∀ p ∈ tg.tunable_groups.map
      (fun q => (q.1, (alookup q.2 (copyAllocLoop h h [] tg.tunable_groups).1).getD q.2)),
      h.next ≤ p.2 := by
    intro p hp
    rcases List.mem_map.mp hp with ⟨q0, hq0, hpe⟩
    rcases hmapF q0 hq0 with ⟨g, nid, _, hnid, hle, _, _⟩
    rw [← hpe]
    simp only [hnid, Option.getD_some]
    exact hle
  have hidx_small : ∀ tname gid, alookup tname tg.index = some gid → gid < h.next := by
    intro tname gid hlook
    rcases hc4 (tname, gid) (alookup_mem hlook) with ⟨p, hp, hpq, _⟩
    simp only at hpq
    rw [← hpq]
    exact hsrc_small p hp
  have hidxF : ∀ tname gid,
      alookup tname (tg.index.map
        (fun q => (q.1, (alookup q.2 (copyAllocLoop h h [] tg.tunable_groups).1).getD q.2))) =
        some gid → h.next ≤ gid := by
    intro tname gid hlook
    rw [alookup_map_value
      (fun gid0 => (alookup gid0 (copyAllocLoop h h [] tg.tunable_groups).1).getD gid0)
      tg.index] at hlook
    cases hx : alookup tname tg.index with
    | none => rw [hx] at hlook; exact Option.noConfusion hlook
    | some gid0 =>
      rw [hx] at hlook
      rw [Option.map_some'] at hlook
      rcases hc4 (tname, gid0) (alookup_mem hx) with ⟨p, hp, hpq, _⟩
      simp only at hpq
      rcases hmapF p hp with ⟨g, nid, _, hnid, hle, _, _⟩
      rw [hpq] at hnid
      rw [hnid] at hlook
      simp only [Option.getD_some, Option.some.injEq] at hlook
      rw [← hlook]
      exact hle
  refine ⟨?_, ?_, ?_, ?_⟩
  · show tgEq (copyAllocLoop h h [] tg.tunable_groups).2 tg
      (copyAllocLoop h h [] tg.tunable_groups).2 (tg.copy h).1 = true
    unfold tgEq
    rw [Bool.and_eq_true]
    constructor
    · rw [List.all_eq_true]
      intro p hp
      rcases hmapF p hp with ⟨g, nid, hg, hnid, _, hgetn, hgetp⟩
      have hmlook : alookup p.1 (tg.copy h).1.tunable_groups = some nid := by
        show alookup p.1 (tg.tunable_groups.map
          (fun q => (q.1, (alookup q.2 (copyAllocLoop h h [] tg.tunable_groups).1).getD q.2))) =
          some nid
        rw [alookup_map_value
          (fun gid0 => (alookup gid0 (copyAllocLoop h h [] tg.tunable_groups).1).getD gid0)
          tg.tunable_groups]
        rw [mem_alookup_of_nodup hc1 hp]
        simp [hnid]
      simp [hmlook, hgetp, hgetn]
    · rw [List.all_eq_true]
      intro p hp
      replace hp : p ∈ tg.tunable_groups.map
          (fun q => (q.1, (alookup q.2 (copyAllocLoop h h [] tg.tunable_groups).1).getD q.2)) :=
        hp
      rcases List.mem_map.mp hp with ⟨q0, hq0, hpe⟩
      show (alookup p.1 tg.tunable_groups).isSome = true
      have hp1 : p.1 = q0.1 := by rw [← hpe]
      rw [hp1]
      exact alookup_isSome_iff.mpr (List.mem_map.mpr ⟨q0, hq0, rfl⟩)
  · intro p hp q hq
    have h1 := hcopy_big p hp
    have h2 := hsrc_small q hq
    intro he
    have h3 : h.next ≤ q.2 := by
      rw [← he]
      exact h1
    exact absurd (Nat.lt_of_lt_of_le h2 h3) (Nat.lt_irrefl _)
  · intro tname v h2 hset q hq
    unfold TunableGroups.setitem at hset
    cases hlook : alookup tname (tg.copy h).1.index with
    | none => simp only [hlook] at hset; exact Except.noConfusion hset
    | some gid =>
      simp only [hlook] at hset
      cases hg : (tg.copy h).2.get gid with
      | none => simp only [hg] at hset; exact Except.noConfusion hset
      | some g =>
        simp only [hg] at hset
        cases hsv : g.setValue tname v with
        | error e => simp only [hsv] at hset; exact Except.noConfusion hset
        | ok g1 =>
          simp only [hsv, Except.ok.injEq] at hset
          rw [← hset]
          have hbig : h.next ≤ gid := hidxF tname gid hlook
          have hsmall := hsrc_small q hq
          exact GroupArena.get_set_ne
            (fun he => absurd (Nat.lt_of_lt_of_le hsmall (he ▸ hbig)) (Nat.lt_irrefl _))
  · intro tname v h2 hset q hq
    unfold TunableGroups.setitem at hset
    cases hlook : alookup tname tg.index with
    | none => simp only [hlook] at hset; exact Except.noConfusion hset
    | some gid =>
      simp only [hlook] at hset
      cases hg : (tg.copy h).2.get gid with
      | none => simp only [hg] at hset; exact Except.noConfusion hset
      | some g =>
        simp only [hg] at hset
        cases hsv : g.setValue tname v with
        | error e => simp only [hsv] at hset; exact Except.noConfusion hset
        | ok g1 =>
          simp only [hsv, Except.ok.injEq] at hset
          rw [← hset]
          have hsmall := hidx_small tname gid hlook
          have hbig : h.next ≤ q.2 := hcopy_big q hq
          exact GroupArena.get_set_ne
            (fun he => absurd (he ▸ Nat.lt_of_lt_of_le hsmall hbig) (Nat.lt_irrefl _))

theorem C7_copy_equal_detached_witness :
    tgEq (rSample.copy arenaSample).2 rSample (rSample.copy arenaSample).2
      (rSample.copy arenaSample).1 = true ∧
    (∀ p ∈ (rSample.copy arenaSample).1.tunable_groups,
      ∀ q ∈ rSample.tunable_groups, p.2 ≠ q.2) ∧
    (∀ tname v h2,
      (rSample.copy arenaSample).1.setitem (rSample.copy arenaSample).2 tname v = .ok h2 →
      ∀ q ∈ rSample.tunable_groups, h2.get q.2 = (rSample.copy arenaSample).2.get q.2) ∧
    (∀ tname v h2, rSample.setitem (rSample.copy arenaSample).2 tname v = .ok h2 →
      ∀ q ∈ (rSample.copy arenaSample).1.tunable_groups,
        h2.get q.2 = (rSample.copy arenaSample).2.get q.2) :=
  C7_copy_equal_detached arenaSample rSample (by decide) (by decide)
